import Mathlib

/-!
The producer / worker-pool pipeline of go-insert-csv (`main.go`).

A shallow embedding of `src/main.go`.

* The record source (`csvReader.Read()`) is a finite list of read results;
  once the list is used up the reader reports `io.EOF`.
* The producer `readCsvFilePerLineThenSendToWorker` is a function on an
  explicit state: the global `dataHeaders` and the sequence of `wg` / channel
  actions it has issued so far.
* `doTheJob` is run against a script that says, for each attempt, what the
  three database calls do (return normally, return an error, or panic).
* The goroutines (producer, workers, `main` blocked in `wg.Wait`) are
  composed by an interleaving step function on a global state.
-/

namespace InsertCsv

/-! ## Constants (`main.go` lines 20-25) -/

def dbMaxIdleConns : Nat := 4
def dbMaxConns : Nat := 100
def totalWorker : Nat := 100

/-! ## Record source -/

/-- Result of one `csvReader.Read()` call: a record with a nil error, `io.EOF`,
or any other error. -/
inductive ReadResult where
  | row (fields : List String)
  | eof
  | readError (msg : String)
  deriving DecidableEq, Repr

/-- The reader is the list of results its next calls return; when the list is
used up `Read` returns `io.EOF`. -/
abbrev CsvReader := List ReadResult

/-- A job is the `[]interface{}` built from a row: the field values in order. -/
abbrev Job := List String

/-! ## Producer (`main.go` lines 99-124) -/

/-- Calls on the `sync.WaitGroup` and on the `jobs` channel, and the calls
`main` makes around the producer. -/
inductive Action where
  | wgAdd (delta : Nat)
  | send (job : Job)
  | close
  | goDispatchWorker
  | wgWait
  deriving DecidableEq, Repr

/-- State the producer works on: the package variable `dataHeaders`, the number
of assignments made to it, and the actions issued so far, oldest first. -/
structure Producer where
  dataHeaders : List String
  headerWrites : Nat
  trace : List Action
  deriving DecidableEq, Repr

/-- The state at program start: `var dataHeaders = make([]string, 0)`. -/
def Producer.start : Producer := ⟨[], 0, []⟩

/-- Lines 114-117: `rowOrdered := make([]interface{}, 0)` followed by
`for _, each := range row { rowOrdered = append(rowOrdered, each) }`. -/
def rowOrdered (row : List String) : Job :=
  row.foldl (fun acc each => acc ++ [each]) []

/-- One pass through the body of the `for` loop once `Read` has returned
`res`; `none` is the `break`. -/
def loopBody (res : ReadResult) (p : Producer) : Option Producer :=
  match res with
  | .eof => none
  | .readError _ => none
  | .row row =>
    if p.dataHeaders.length = 0 then
      some { p with dataHeaders := row, headerWrites := p.headerWrites + 1 }
    else
      some { p with trace := p.trace ++ [Action.wgAdd 1, Action.send (rowOrdered row)] }

/-- The `for { ... }` loop of lines 100-121; returns the state at the `break`. -/
def readLoop : CsvReader → Producer → Producer
  | [], p => p
  | res :: rest, p =>
    match loopBody res p with
    | none => p
    | some p' => readLoop rest p'

/-- The states at the end of each completed pass through the loop body. -/
def loopStates : CsvReader → Producer → List Producer
  | [], _ => []
  | res :: rest, p =>
    match loopBody res p with
    | none => []
    | some p' => p' :: loopStates rest p'

/-- Line 123: `close(jobs)`. -/
def closeJobs (p : Producer) : Producer :=
  { p with trace := p.trace ++ [Action.close] }

/-- The whole of `readCsvFilePerLineThenSendToWorker`. -/
def readCsvFilePerLineThenSendToWorker (csvReader : CsvReader) (p : Producer) : Producer :=
  closeJobs (readLoop csvReader p)

/-- Lines 51-54 of `main`: start the pool, run the producer on this goroutine,
then `wg.Wait()`. -/
def mainPipeline (csvReader : CsvReader) : Producer :=
  let p0 : Producer := { Producer.start with trace := [Action.goDispatchWorker] }
  let p1 := readCsvFilePerLineThenSendToWorker csvReader p0
  { p1 with trace := p1.trace ++ [Action.wgWait] }

/-- The jobs sent on the channel, in order. -/
def pushed : List Action → List Job
  | [] => []
  | Action.send j :: rest => j :: pushed rest
  | _ :: rest => pushed rest

/-- Number of `wg.Add` calls in a trace. -/
def addCount : List Action → Nat
  | [] => 0
  | Action.wgAdd _ :: rest => addCount rest + 1
  | _ :: rest => addCount rest

/-- Number of `close(jobs)` calls in a trace. -/
def closeCount : List Action → Nat
  | [] => 0
  | Action.close :: rest => closeCount rest + 1
  | _ :: rest => closeCount rest

/-- The rows that come before the first result that is not a row. -/
def leadingRows : CsvReader → List (List String)
  | ReadResult.row r :: rest => r :: leadingRows rest
  | _ => []

/-- The `Add`/push pairs for a list of jobs. -/
def dispatchActions (jobs : List Job) : List Action :=
  jobs.flatMap (fun j => [Action.wgAdd 1, Action.send j])

/-- Whether the first read result, when it is a record, has at least one field.
`encoding/csv` skips blank lines and never returns a record with no field, so
this holds of every real reader. -/
def headerHasField : CsvReader → Bool
  | ReadResult.row [] :: _ => false
  | _ => true

/-! ## Statement text (`main.go` lines 141 and 164-170) -/

/-- The loop of `generateQuestionMarks`:
`for i := 0; i < n; i++ { s = append(s, "?") }`, entered with the current `i`
and `s`. -/
def generateQuestionMarksFrom (n i : Int) (s : List String) : List String :=
  if i < n then generateQuestionMarksFrom n (i + 1) (s ++ ["?"]) else s
termination_by (n - i).toNat
decreasing_by omega

/-- Lines 164-170. -/
def generateQuestionMarks (n : Int) : List String :=
  generateQuestionMarksFrom n 0 []

/-- Go's `strings.Join`: nothing for no element, the element itself for one,
otherwise the first element and then separator and element in turn. -/
def stringsJoin (elems : List String) (sep : String) : String :=
  match elems with
  | [] => ""
  | [e] => e
  | e :: rest => rest.foldl (fun b s => b ++ sep ++ s) e

/-- The part of `fmt.Sprintf` the program uses: each `%s` verb is replaced by
the next string operand (a verb with no operand left prints Go's
`%!s(MISSING)`), every other character is copied. -/
def sprintfChars : List Char → List String → List Char
  | '%' :: 's' :: rest, a :: args => a.data ++ sprintfChars rest args
  | '%' :: 's' :: rest, [] => "%!s(MISSING)".data ++ sprintfChars rest []
  | c :: rest, args => c :: sprintfChars rest args
  | [], _ => []

def sprintf (format : String) (args : List String) : String :=
  ⟨sprintfChars format.data args⟩

/-- Line 141: the text of the insert statement. -/
def insertQuery (dataHeaders : List String) : String :=
  sprintf "INSERT INTO domain (%s) VALUES (%s)"
    [stringsJoin dataHeaders ",",
     stringsJoin (generateQuestionMarks (dataHeaders.length : Int)) ","]

/-! ## One job (`main.go` lines 126-162) -/

/-- What a database call does: return with a nil error, return an error, or
panic. -/
inductive Outcome where
  | ok
  | error (msg : String)
  | panic (msg : String)
  deriving DecidableEq, Repr

/-- What the three database calls of one attempt do: `db.Conn`,
`conn.ExecContext` and `conn.Close`. -/
structure Attempt where
  conn : Outcome
  exec : Outcome
  close : Outcome
  deriving DecidableEq, Repr

/-- An attempt in which every call succeeds. -/
def Attempt.good : Attempt := ⟨Outcome.ok, Outcome.ok, Outcome.ok⟩

/-- Things a worker does that can be seen from outside. -/
inductive Event where
  | attemptStart (held : Nat)
  | connOpened
  | inserted (query : String) (values : Job)
  | execFailed (query : String) (values : Job)
  | connClosed
  | println (workerIndex counter : Nat)
  | wgDone
  deriving DecidableEq, Repr

/-- The worker's view of the database: the connections it has acquired and
not released, and the events so far, oldest first. An insert takes effect
exactly when `ExecContext` returns a nil error. -/
structure Db where
  held : Nat
  log : List Event
  deriving DecidableEq, Repr

def Db.start : Db := ⟨0, []⟩

def Db.emit (db : Db) (e : Event) : Db := { db with log := db.log ++ [e] }

/-- How the function literal of lines 129-152 ends: it returns with
`outerError` nil, it returns after `recover` has stored the panic in
`outerError`, or `log.Fatal` ends the process (`os.Exit(1)`; deferred
functions do not run). -/
inductive AttemptExit where
  | normal
  | recovered (msg : String)
  | fatal (msg : String)
  deriving DecidableEq, Repr

/-- Lines 129-152: one attempt. -/
def attemptOnce (dataHeaders : List String) (values : Job) (a : Attempt) (db : Db) :
    AttemptExit × Db :=
  match a.conn with
  | Outcome.panic m => (AttemptExit.recovered m, db)
  | Outcome.error m => (AttemptExit.fatal m, db)
  | Outcome.ok =>
    let db1 := ({ db with held := db.held + 1 } : Db).emit Event.connOpened
    let query := insertQuery dataHeaders
    match a.exec with
    | Outcome.panic m => (AttemptExit.recovered m, db1.emit (Event.execFailed query values))
    | Outcome.error m => (AttemptExit.fatal m, db1.emit (Event.execFailed query values))
    | Outcome.ok =>
      let db2 := db1.emit (Event.inserted query values)
      match a.close with
      | Outcome.panic m => (AttemptExit.recovered m, db2)
      | Outcome.error m => (AttemptExit.fatal m, db2)
      | Outcome.ok => (AttemptExit.normal, ({ db2 with held := db2.held - 1 } : Db).emit Event.connClosed)

/-- How `doTheJob` stands when the scripted attempts are used up: it has
returned, the process has been ended by `log.Fatal`, or the loop is about to
start one more attempt. -/
inductive JobExit where
  | returned
  | processExit (msg : String)
  | retrying
  deriving DecidableEq, Repr

/-- The `for { ... }` loop of lines 127-157, run against the attempts the
database scripts. -/
def doTheJobLoop (dataHeaders : List String) (values : Job) :
    List Attempt → Db → JobExit × Db
  | [], db => (JobExit.retrying, db)
  | a :: rest, db =>
    match attemptOnce dataHeaders values a (db.emit (Event.attemptStart db.held)) with
    | (AttemptExit.normal, db') => (JobExit.returned, db')
    | (AttemptExit.recovered _, db') => doTheJobLoop dataHeaders values rest db'
    | (AttemptExit.fatal m, db') => (JobExit.processExit m, db')

/-- Lines 126-162: the retry loop, then the progress line every hundredth job. -/
def doTheJob (workerIndex counter : Nat) (dataHeaders : List String) (values : Job)
    (script : List Attempt) (db : Db) : JobExit × Db :=
  match doTheJobLoop dataHeaders values script db with
  | (JobExit.returned, db') =>
    (JobExit.returned,
      if counter % 100 = 0 then db'.emit (Event.println workerIndex counter) else db')
  | other => other

/-- Lines 91-93: what a worker does with one job it has received; it gives
back the worker's `counter`. -/
def workerHandle (workerIndex counter : Nat) (dataHeaders : List String) (job : Job)
    (script : List Attempt) (db : Db) : JobExit × Nat × Db :=
  match doTheJob workerIndex counter dataHeaders job script db with
  | (JobExit.returned, db') => (JobExit.returned, counter + 1, db'.emit Event.wgDone)
  | (other, db') => (other, counter, db')

/-- Number of inserts that took effect. -/
def insertCount : List Event → Nat
  | [] => 0
  | Event.inserted _ _ :: rest => insertCount rest + 1
  | _ :: rest => insertCount rest

/-- Number of `wg.Done` calls. -/
def doneCount : List Event → Nat
  | [] => 0
  | Event.wgDone :: rest => doneCount rest + 1
  | _ :: rest => doneCount rest

/-- The numbers of held connections seen at the start of each attempt. -/
def heldAtStarts : List Event → List Nat
  | [] => []
  | Event.attemptStart h :: rest => h :: heldAtStarts rest
  | _ :: rest => heldAtStarts rest

/-- Whether an attempt fails by a panic, which `recover` turns into a retry: a
panic in `db.Conn`, or in `conn.ExecContext` once the connection is there, or
in `conn.Close` once the statement has run. -/
def Attempt.panics (a : Attempt) : Bool :=
  match a.conn, a.exec, a.close with
  | Outcome.panic _, _, _ => true
  | Outcome.ok, Outcome.panic _, _ => true
  | Outcome.ok, Outcome.ok, Outcome.panic _ => true
  | _, _, _ => false

/-- Whether an attempt fails at the release stage: a panic in `conn.Close`,
after `ExecContext` has returned a nil error. -/
def Attempt.panicsAtRelease (a : Attempt) : Bool :=
  match a.conn, a.exec, a.close with
  | Outcome.ok, Outcome.ok, Outcome.panic _ => true
  | _, _, _ => false

/-- The inserts that took effect, in order: statement text and values. -/
def insertsOf : List Event → List (String × Job)
  | [] => []
  | Event.inserted q v :: rest => (q, v) :: insertsOf rest
  | _ :: rest => insertsOf rest

/-- Whether an attempt fails at all: some call it reaches does not return a nil
error. -/
def Attempt.fails (a : Attempt) : Bool :=
  match a.conn, a.exec, a.close with
  | Outcome.ok, Outcome.ok, Outcome.ok => false
  | _, _, _ => true

/-! ## The pool (`main.go` lines 86-97) -/

/-- The loop `for workerIndex := 0; workerIndex <= totalWorker; workerIndex++`
of `dispatchWorker`, entered with the current `workerIndex`; it returns the
indices of the goroutines started, in order. -/
def dispatchWorkerFrom (workerIndex : Nat) (started : List Nat) : List Nat :=
  if workerIndex ≤ totalWorker then
    dispatchWorkerFrom (workerIndex + 1) (started ++ [workerIndex])
  else started
termination_by totalWorker + 1 - workerIndex
decreasing_by omega

/-- Lines 86-97: the worker goroutines `dispatchWorker` starts. -/
def dispatchWorker : List Nat := dispatchWorkerFrom 0 []

/-- The statement texts handed to `ExecContext`, in order. -/
def queriesOf : List Event → List String
  | [] => []
  | Event.inserted q _ :: rest => q :: queriesOf rest
  | Event.execFailed q _ :: rest => q :: queriesOf rest
  | _ :: rest => queriesOf rest

/-! ## The goroutines together (`main.go` lines 48-54 and 86-97)

The main goroutine runs the actions of `mainPipeline` in order; `dispatchWorker`
starts the workers one by one; each worker runs
`for job := range jobs { doTheJob(...); wg.Done(); counter++ }`. The channel is
unbuffered, so a send and a receive happen together. Every `doTheJob` here
returns: the persists succeed. -/

/-- Where a worker goroutine stands: blocked in `range jobs`; holding a job
whose `doTheJob` has not returned yet; back from `doTheJob` with `wg.Done` not
called yet; or out of its loop because the channel is closed. -/
inductive WorkerPc where
  | waiting
  | working (job : Job)
  | persisted (job : Job)
  | exited
  deriving DecidableEq, Repr

/-- Which goroutine moves: the main goroutine does its next action (a send
excepted, which needs a receiver); `dispatchWorker` starts its next worker;
worker `i` receives the job being sent, gets back from `doTheJob`, calls
`wg.Done`, or leaves its loop. -/
inductive Label where
  | main
  | spawn
  | recv (i : Nat)
  | persist (i : Nat)
  | done (i : Nat)
  | exit (i : Nat)
  deriving DecidableEq, Repr

/-- The state of the whole program. `counter` is the WaitGroup counter; `adds`,
`dones`, `persists`, `received` and `zeroHits` count the `wg.Add` calls, the
`wg.Done` calls, the returns of `doTheJob`, the jobs received, and the times a
`wg.Done` has brought the counter to zero. -/
structure Pool where
  poolSize : Nat
  prog : List Action
  toSpawn : Nat
  workers : List WorkerPc
  closed : Bool
  counter : Int
  panicked : Bool
  mainReturned : Bool
  adds : Nat
  dones : Nat
  persists : Nat
  received : Nat
  zeroHits : Nat
  deriving DecidableEq, Repr

/-- The program at the point where `main` has made the channel and the
WaitGroup (lines 48-49), with a pool of `poolSize` workers to come. -/
def Pool.init (csvReader : CsvReader) (poolSize : Nat) : Pool :=
  { poolSize := poolSize
    prog := (mainPipeline csvReader).trace
    toSpawn := 0
    workers := []
    closed := false
    counter := 0
    panicked := false
    mainReturned := false
    adds := 0
    dones := 0
    persists := 0
    received := 0
    zeroHits := 0 }

/-- The next action of the main goroutine. `wg.Wait` goes through only when the
counter is zero, and `main` returns after it. -/
def Pool.stepMain (s : Pool) : Option Pool :=
  match s.prog with
  | Action.goDispatchWorker :: rest => some { s with prog := rest, toSpawn := s.poolSize }
  | Action.wgAdd delta :: rest =>
    some { s with prog := rest, counter := s.counter + delta, adds := s.adds + 1 }
  | Action.close :: rest => some { s with prog := rest, closed := true }
  | Action.wgWait :: rest =>
    if s.counter = 0 then some { s with prog := rest, mainReturned := true } else none
  | Action.send _ :: _ => none
  | [] => none

/-- The goroutine of `dispatchWorker` starts one more worker, which blocks in
`range jobs`. -/
def Pool.stepSpawn (s : Pool) : Option Pool :=
  if 0 < s.toSpawn then
    some { s with toSpawn := s.toSpawn - 1, workers := s.workers ++ [WorkerPc.waiting] }
  else none

/-- Worker `i`, blocked in `range jobs`, receives the job the producer is
sending. -/
def Pool.stepRecv (s : Pool) (i : Nat) : Option Pool :=
  match s.prog, s.workers[i]? with
  | Action.send job :: rest, some WorkerPc.waiting =>
    some { s with prog := rest, workers := s.workers.set i (WorkerPc.working job),
                  received := s.received + 1 }
  | _, _ => none

/-- Worker `i` gets back from `doTheJob`. -/
def Pool.stepPersist (s : Pool) (i : Nat) : Option Pool :=
  match s.workers[i]? with
  | some (WorkerPc.working job) =>
    some { s with workers := s.workers.set i (WorkerPc.persisted job),
                  persists := s.persists + 1 }
  | _ => none

/-- Worker `i` calls `wg.Done()` and goes back to `range jobs`; a counter that
would become negative makes `Done` panic. -/
def Pool.stepDone (s : Pool) (i : Nat) : Option Pool :=
  match s.workers[i]? with
  | some (WorkerPc.persisted _) =>
    if s.counter - 1 < 0 then some { s with panicked := true }
    else
      some { s with workers := s.workers.set i WorkerPc.waiting,
                    counter := s.counter - 1,
                    dones := s.dones + 1,
                    zeroHits := if s.counter - 1 = 0 then s.zeroHits + 1 else s.zeroHits }
  | _ => none

/-- Worker `i`, blocked in `range jobs`, finds the channel closed and leaves. -/
def Pool.stepExit (s : Pool) (i : Nat) : Option Pool :=
  match s.workers[i]? with
  | some WorkerPc.waiting =>
    if s.closed then some { s with workers := s.workers.set i WorkerPc.exited } else none
  | _ => none

/-- One step of the program; `none` when the goroutine named cannot move.
Nothing moves once `main` has returned or a goroutine has panicked: the process
is over. -/
def Pool.step (s : Pool) (l : Label) : Option Pool :=
  if s.mainReturned || s.panicked then none
  else
    match l with
    | Label.main => s.stepMain
    | Label.spawn => s.stepSpawn
    | Label.recv i => s.stepRecv i
    | Label.persist i => s.stepPersist i
    | Label.done i => s.stepDone i
    | Label.exit i => s.stepExit i

/-- An execution: the steps of a schedule one after the other. -/
def Pool.run : Pool → List Label → Option Pool
  | s, [] => some s
  | s, l :: ls =>
    match s.step l with
    | none => none
    | some s' => s'.run ls

/-- The counter after each step of an execution, as far as the schedule can be
followed. -/
def Pool.counters : Pool → List Label → List Int
  | _, [] => []
  | s, l :: ls =>
    match s.step l with
    | none => []
    | some s' => s'.counter :: s'.counters ls

/-- Workers that hold a job: received and `wg.Done` not called yet. -/
def busyCount : List WorkerPc → Nat
  | [] => 0
  | WorkerPc.working _ :: ws => busyCount ws + 1
  | WorkerPc.persisted _ :: ws => busyCount ws + 1
  | _ :: ws => busyCount ws

/-- Workers back from `doTheJob` that have not called `wg.Done` yet. -/
def persistedCount : List WorkerPc → Nat
  | [] => 0
  | WorkerPc.persisted _ :: ws => persistedCount ws + 1
  | _ :: ws => persistedCount ws

/-- Steps an action of the main goroutine still stands for: starting the pool
stands for itself and, for each worker, its start and its exit; a push stands
for itself, the persist and the `Done`. -/
def actionWeight (poolSize : Nat) : Action → Nat
  | Action.goDispatchWorker => 2 * poolSize + 1
  | Action.send _ => 3
  | _ => 1

/-- Steps the remaining actions of the main goroutine still stand for. -/
def progWeight (poolSize : Nat) : List Action → Nat
  | [] => 0
  | a :: rest => actionWeight poolSize a + progWeight poolSize rest

/-- Steps a worker can still take without receiving another job. -/
def workerWeight : WorkerPc → Nat
  | WorkerPc.waiting => 1
  | WorkerPc.working _ => 3
  | WorkerPc.persisted _ => 2
  | WorkerPc.exited => 0

/-- The sum of `workerWeight` over the pool. -/
def workersWeight : List WorkerPc → Nat
  | [] => 0
  | w :: ws => workerWeight w + workersWeight ws

/-- A bound on the number of steps the program can still take. -/
def Pool.weight (s : Pool) : Nat :=
  progWeight s.poolSize s.prog + 2 * s.toSpawn + workersWeight s.workers

/-- Whether the main goroutine has still to start the pool. -/
def startsPool : List Action → Bool
  | Action.goDispatchWorker :: _ => true
  | _ => false

/-- What can be left of the main goroutine's actions: the whole of
`mainPipeline`, or the `Add`/push pairs of the rows still to go followed by
close and wait, or the same with a push first whose `Add` has been done, or the
wait alone, or nothing. -/
def ProgShape (prog : List Action) : Prop :=
  (∃ js, prog = Action.goDispatchWorker :: (dispatchActions js ++ [Action.close, Action.wgWait]))
  ∨ (∃ js, prog = dispatchActions js ++ [Action.close, Action.wgWait])
  ∨ (∃ j js, prog = Action.send j :: (dispatchActions js ++ [Action.close, Action.wgWait]))
  ∨ prog = [Action.wgWait]
  ∨ prog = []

/-- What holds of every state an execution reaches, for an input of `H`
dispatched rows. -/
structure Pool.Inv (H : Nat) (s : Pool) : Prop where
  noPanic : s.panicked = false
  shape : ProgShape s.prog
  counter_eq : s.counter = (s.adds : Int) - (s.dones : Int)
  received_eq : s.received = s.dones + busyCount s.workers
  persists_eq : s.persists = s.dones + persistedCount s.workers
  adds_eq : s.adds + addCount s.prog = H
  sends_eq : s.received + (pushed s.prog).length = H
  zero_le : s.zeroHits ≤ s.dones
  zero_ge : s.counter = 0 → 1 ≤ s.dones → 1 ≤ s.zeroHits
  returned : s.mainReturned = true → s.prog = [] ∧ s.counter = 0
  closed_last : s.closed = true → pushed s.prog = [] ∧ addCount s.prog = 0

/-- What more holds of every state an execution reaches, for a pool of `N`
workers: the workers started and still to start make up the pool once it has
been started, a worker has left its loop only if the channel is closed, and the
main goroutine has nothing left to do only if `main` has returned. -/
structure Pool.Live (N : Nat) (s : Pool) : Prop where
  size : s.poolSize = N
  started : (startsPool s.prog = true ∧ s.workers = [] ∧ s.toSpawn = 0)
    ∨ (startsPool s.prog = false ∧ s.workers.length + s.toSpawn = N)
  exitedClosed : WorkerPc.exited ∈ s.workers → s.closed = true
  finished : s.prog = [] → s.mainReturned = true

/-- The input of the end-to-end scenario: a header and three data rows. -/
def threeRows : CsvReader :=
  [ReadResult.row ["id", "name"], ReadResult.row ["1", "a"], ReadResult.row ["2", "b"],
    ReadResult.row ["3", "c"]]

/-- An execution on `threeRows` with two workers that overlap: worker 1 takes
row 1 and worker 0 rows 2 and 3. -/
def twoWorkerSchedule : List Label :=
  [Label.main, Label.spawn, Label.spawn,
    Label.main, Label.recv 1, Label.main, Label.recv 0, Label.persist 0,
    Label.persist 1, Label.done 0, Label.main, Label.recv 0, Label.done 1,
    Label.persist 0, Label.main, Label.exit 1, Label.done 0, Label.main]

/-! ## Producer: lemmas -/

theorem rowOrdered_foldl (row acc : List String) :
    row.foldl (fun acc each => acc ++ [each]) acc = acc ++ row := by
  induction row generalizing acc with
  | nil => simp
  | cons x xs ih => simp [ih]

/-- The copy loop keeps every field value, in order. -/
theorem rowOrdered_eq (row : List String) : rowOrdered row = row := by
  simp [rowOrdered, rowOrdered_foldl]

theorem pushed_append (a b : List Action) : pushed (a ++ b) = pushed a ++ pushed b := by
  induction a with
  | nil => rfl
  | cons x xs ih => cases x <;> simp [pushed, ih]

theorem addCount_append (a b : List Action) : addCount (a ++ b) = addCount a + addCount b := by
  induction a with
  | nil => simp [addCount]
  | cons x xs ih =>
    cases x
    all_goals simp [addCount, ih]
    all_goals omega

theorem closeCount_append (a b : List Action) :
    closeCount (a ++ b) = closeCount a + closeCount b := by
  induction a with
  | nil => simp [closeCount]
  | cons x xs ih =>
    cases x
    all_goals simp [closeCount, ih]
    all_goals omega

theorem pushed_dispatchActions (jobs : List Job) : pushed (dispatchActions jobs) = jobs := by
  induction jobs with
  | nil => rfl
  | cons j js ih =>
    simp only [dispatchActions, List.flatMap_cons] at ih ⊢
    simp [pushed, ih]

theorem addCount_dispatchActions (jobs : List Job) :
    addCount (dispatchActions jobs) = jobs.length := by
  induction jobs with
  | nil => rfl
  | cons j js ih =>
    simp only [dispatchActions, List.flatMap_cons] at ih ⊢
    simp [addCount, ih]

theorem closeCount_dispatchActions (jobs : List Job) :
    closeCount (dispatchActions jobs) = 0 := by
  induction jobs with
  | nil => rfl
  | cons j js ih =>
    simp only [dispatchActions, List.flatMap_cons] at ih ⊢
    simp [closeCount, ih]

theorem dispatchActions_cons (j : Job) (js : List Job) :
    dispatchActions (j :: js) = Action.wgAdd 1 :: Action.send j :: dispatchActions js := by
  simp [dispatchActions]

/-- Once the schema is set, the loop only appends one `Add`/push pair per
leading row and leaves `dataHeaders` alone. -/
theorem readLoop_of_headers (rs : CsvReader) (p : Producer) (h : p.dataHeaders ≠ []) :
    readLoop rs p =
      { p with trace := p.trace ++ dispatchActions (leadingRows rs) } := by
  induction rs generalizing p with
  | nil => simp [readLoop, leadingRows, dispatchActions]
  | cons res rest ih =>
    cases res with
    | eof => simp [readLoop, loopBody, leadingRows, dispatchActions]
    | readError m => simp [readLoop, loopBody, leadingRows, dispatchActions]
    | row r =>
      have hlen : p.dataHeaders.length ≠ 0 := by
        intro h0; exact h (List.length_eq_zero.mp h0)
      simp only [readLoop, loopBody, if_neg hlen]
      have hnext := ih { p with trace := p.trace ++ [Action.wgAdd 1, Action.send (rowOrdered r)] } h
      rw [hnext]
      simp [leadingRows, dispatchActions_cons, rowOrdered_eq]

/-- With no schema yet, every row is taken as the schema and nothing is sent
until a row with at least one field arrives. -/
theorem readLoop_trace_of_empty (rs : CsvReader) (p : Producer) (h : p.dataHeaders = []) :
    (readLoop rs p).trace =
      p.trace ++ dispatchActions (((leadingRows rs).dropWhile (fun r => r.isEmpty)).tail) := by
  induction rs generalizing p with
  | nil => simp [readLoop, leadingRows, dispatchActions]
  | cons res rest ih =>
    cases res with
    | eof => simp [readLoop, loopBody, leadingRows, dispatchActions]
    | readError m => simp [readLoop, loopBody, leadingRows, dispatchActions]
    | row r =>
      simp only [readLoop, loopBody, h, List.length_nil, if_true]
      cases r with
      | nil =>
        rw [ih _ rfl]
        simp [leadingRows, List.dropWhile]
      | cons f fs =>
        rw [readLoop_of_headers _ _ (by simp)]
        simp [leadingRows, List.dropWhile]

/-- The producer's trace from program start, for any input. -/
theorem producer_trace (rs : CsvReader) :
    (readCsvFilePerLineThenSendToWorker rs Producer.start).trace =
      dispatchActions (((leadingRows rs).dropWhile (fun r => r.isEmpty)).tail)
        ++ [Action.close] := by
  simp only [readCsvFilePerLineThenSendToWorker, closeJobs]
  rw [readLoop_trace_of_empty rs Producer.start rfl]
  simp [Producer.start]

theorem dropWhile_of_headerHasField (rs : CsvReader) (h : headerHasField rs = true) :
    (leadingRows rs).dropWhile (fun r => r.isEmpty) = leadingRows rs := by
  cases rs with
  | nil => rfl
  | cons res rest =>
    cases res with
    | eof => rfl
    | readError m => rfl
    | row r =>
      cases r with
      | nil => simp [headerHasField] at h
      | cons f fs => simp [leadingRows, List.dropWhile]

theorem readLoop_eq_getLastD (rs : CsvReader) (p : Producer) :
    readLoop rs p = (loopStates rs p).getLastD p := by
  induction rs generalizing p with
  | nil => rfl
  | cons res rest ih =>
    simp only [readLoop, loopStates]
    cases hb : loopBody res p with
    | none => rfl
    | some p' =>
      simp only [ih p']
      cases hs : loopStates rest p' with
      | nil => rfl
      | cons a l => simp only [List.getLastD_cons]

theorem loopStates_length (rs : CsvReader) (p : Producer) :
    (loopStates rs p).length = (leadingRows rs).length := by
  induction rs generalizing p with
  | nil => rfl
  | cons res rest ih =>
    cases res with
    | eof => simp [loopStates, loopBody, leadingRows]
    | readError m => simp [loopStates, loopBody, leadingRows]
    | row r =>
      by_cases hz : p.dataHeaders.length = 0 <;>
        simp [loopStates, loopBody, leadingRows, hz, ih]

theorem loopStates_of_headers (rs : CsvReader) (p : Producer) (h : p.dataHeaders ≠ []) :
    ∀ q ∈ loopStates rs p, q.dataHeaders = p.dataHeaders ∧ q.headerWrites = p.headerWrites := by
  induction rs generalizing p with
  | nil => simp [loopStates]
  | cons res rest ih =>
    cases res with
    | eof => simp [loopStates, loopBody]
    | readError m => simp [loopStates, loopBody]
    | row r =>
      have hlen : p.dataHeaders.length ≠ 0 := by
        intro h0; exact h (List.length_eq_zero.mp h0)
      simp only [loopStates, loopBody, if_neg hlen]
      intro q hq
      rcases List.mem_cons.mp hq with rfl | hq
      · simp
      · exact ih { p with trace := p.trace ++ [Action.wgAdd 1, Action.send (rowOrdered r)] }
          h q hq

/-! ## Producer: the claims -/

/-- C1: starting from an empty `dataHeaders`, the jobs pushed onto the channel
are the rows before the first non-row result with the first row removed, in
source order and with their field values unchanged; the header row is not
pushed, and an input with at most the header row pushes nothing. The first
record is taken to have at least one field, as every record `encoding/csv`
returns has. -/
theorem jobs_pushed_are_rows_after_header (rs : CsvReader)
    (hfield : headerHasField rs = true) :
    pushed (readCsvFilePerLineThenSendToWorker rs Producer.start).trace = (leadingRows rs).tail
    ∧ (pushed (readCsvFilePerLineThenSendToWorker rs Producer.start).trace).length
        = (leadingRows rs).length - 1
    ∧ ((leadingRows rs).length ≤ 1 →
        pushed (readCsvFilePerLineThenSendToWorker rs Producer.start).trace = []) := by
  have key : pushed (readCsvFilePerLineThenSendToWorker rs Producer.start).trace
      = (leadingRows rs).tail := by
    rw [producer_trace, dropWhile_of_headerHasField rs hfield, pushed_append,
      pushed_dispatchActions]
    simp [pushed]
  refine ⟨key, ?_, ?_⟩
  · rw [key, List.length_tail]
  · intro hlen
    rw [key]
    cases hl : leadingRows rs with
    | nil => rfl
    | cons a l =>
      rw [hl] at hlen
      cases l with
      | nil => rfl
      | cons b l => simp at hlen

theorem jobs_pushed_are_rows_after_header_witness :
    headerHasField [ReadResult.row ["id", "name"], ReadResult.row ["1", "a"],
        ReadResult.row ["2", "b"], ReadResult.row ["3", "c"], ReadResult.eof,
        ReadResult.row ["4", "d"]] = true
    ∧ pushed (readCsvFilePerLineThenSendToWorker
        [ReadResult.row ["id", "name"], ReadResult.row ["1", "a"],
          ReadResult.row ["2", "b"], ReadResult.row ["3", "c"], ReadResult.eof,
          ReadResult.row ["4", "d"]] Producer.start).trace
        = [["1", "a"], ["2", "b"], ["3", "c"]] :=
  ⟨rfl, (jobs_pushed_are_rows_after_header
    [ReadResult.row ["id", "name"], ReadResult.row ["1", "a"],
      ReadResult.row ["2", "b"], ReadResult.row ["3", "c"], ReadResult.eof,
      ReadResult.row ["4", "d"]] rfl).1⟩

/-- C7: starting from an empty `dataHeaders`, the schema is assigned exactly once,
from the first row read, and no later row alters it: after every pass through
the loop and at the end of the run `dataHeaders` is the first row, whatever
the later rows look like. The first record is taken to have at least one
field, as every record `encoding/csv` returns has. -/
theorem schema_set_once_from_first_row (r : List String) (rest : CsvReader)
    (hr : r ≠ []) :
    (readCsvFilePerLineThenSendToWorker (ReadResult.row r :: rest) Producer.start).dataHeaders = r
    ∧ (readCsvFilePerLineThenSendToWorker (ReadResult.row r :: rest) Producer.start).headerWrites
        = 1
    ∧ (loopStates (ReadResult.row r :: rest) Producer.start).length
        = (leadingRows (ReadResult.row r :: rest)).length
    ∧ ∀ q ∈ loopStates (ReadResult.row r :: rest) Producer.start,
        q.dataHeaders = r ∧ q.headerWrites = 1 := by
  have hfirst : loopBody (ReadResult.row r) Producer.start
      = some { dataHeaders := r, headerWrites := 1, trace := [] } := by
    simp [loopBody, Producer.start]
  refine ⟨?_, ?_, loopStates_length _ _, ?_⟩
  · simp only [readCsvFilePerLineThenSendToWorker, closeJobs, readLoop, hfirst]
    rw [readLoop_of_headers _ _ (by simpa using hr)]
  · simp only [readCsvFilePerLineThenSendToWorker, closeJobs, readLoop, hfirst]
    rw [readLoop_of_headers _ _ (by simpa using hr)]
  · intro q hq
    simp only [loopStates, hfirst] at hq
    rcases List.mem_cons.mp hq with rfl | hq
    · simp
    · exact loopStates_of_headers rest _ (by simpa using hr) q hq

theorem schema_set_once_from_first_row_witness :
    ["id", "name"] ≠ ([] : List String)
    ∧ (readCsvFilePerLineThenSendToWorker
        [ReadResult.row ["id", "name"], ReadResult.row ["1"], ReadResult.row [],
          ReadResult.row ["2", "b", "x"]] Producer.start).dataHeaders = ["id", "name"]
    ∧ (readCsvFilePerLineThenSendToWorker
        [ReadResult.row ["id", "name"], ReadResult.row ["1"], ReadResult.row [],
          ReadResult.row ["2", "b", "x"]] Producer.start).headerWrites = 1 :=
  ⟨by simp,
    (schema_set_once_from_first_row ["id", "name"]
      [ReadResult.row ["1"], ReadResult.row [], ReadResult.row ["2", "b", "x"]] (by simp)).1,
    (schema_set_once_from_first_row ["id", "name"]
      [ReadResult.row ["1"], ReadResult.row [], ReadResult.row ["2", "b", "x"]] (by simp)).2.1⟩

/-- The jobs the producer pushes, for any input. -/
theorem pushed_producer (rs : CsvReader) :
    pushed (readCsvFilePerLineThenSendToWorker rs Producer.start).trace
      = ((leadingRows rs).dropWhile (fun r => r.isEmpty)).tail := by
  rw [producer_trace, pushed_append, pushed_dispatchActions]
  simp [pushed]

/-- The actions of the main goroutine: start the pool, the producer's actions,
then wait. -/
theorem mainPipeline_trace (rs : CsvReader) :
    (mainPipeline rs).trace
      = Action.goDispatchWorker ::
          (dispatchActions (pushed (readCsvFilePerLineThenSendToWorker rs Producer.start).trace)
            ++ [Action.close, Action.wgWait]) := by
  have hmain : (mainPipeline rs).trace
      = Action.goDispatchWorker ::
          ((readCsvFilePerLineThenSendToWorker rs Producer.start).trace ++ [Action.wgWait]) := by
    simp only [mainPipeline, readCsvFilePerLineThenSendToWorker, closeJobs]
    by_cases hz : headerHasField rs = true
    · cases rs with
      | nil => simp [readLoop, Producer.start]
      | cons res rest =>
        cases res with
        | eof => simp [readLoop, loopBody, Producer.start]
        | readError m => simp [readLoop, loopBody, Producer.start]
        | row r =>
          cases r with
          | nil => simp [headerHasField] at hz
          | cons f fs =>
            simp only [readLoop, loopBody, Producer.start, List.length_nil, if_true]
            rw [readLoop_of_headers _ _ (by simp), readLoop_of_headers _ _ (by simp)]
            simp
    · rw [readLoop_trace_of_empty rs _ rfl, readLoop_trace_of_empty rs _ rfl]
      simp [Producer.start]
  rw [hmain, pushed_producer, producer_trace]
  simp

/-- An input with at most the header row dispatches nothing. -/
theorem pushed_of_header_only (rs : CsvReader) (h : (leadingRows rs).length ≤ 1) :
    pushed (readCsvFilePerLineThenSendToWorker rs Producer.start).trace = [] := by
  have hsub : ((leadingRows rs).dropWhile (fun r => r.isEmpty)).length
      ≤ (leadingRows rs).length :=
    (List.dropWhile_sublist (fun r : List String => r.isEmpty)).length_le
  have hlen : (pushed (readCsvFilePerLineThenSendToWorker rs Producer.start).trace).length = 0 := by
    rw [pushed_producer, List.length_tail]
    omega
  exact List.length_eq_zero.mp hlen

/-! ## Statement text: lemmas -/

theorem generateQuestionMarksFrom_eq (k : Nat) :
    ∀ (n i : Int) (s : List String), (n - i).toNat = k →
      generateQuestionMarksFrom n i s = s ++ List.replicate k "?" := by
  induction k with
  | zero =>
    intro n i s h
    rw [generateQuestionMarksFrom, if_neg (by omega)]
    simp
  | succ k ih =>
    intro n i s h
    rw [generateQuestionMarksFrom, if_pos (by omega), ih n (i + 1) _ (by omega)]
    simp [List.replicate_succ]

theorem generateQuestionMarks_eq (k : Nat) :
    generateQuestionMarks (k : Int) = List.replicate k "?" := by
  rw [generateQuestionMarks, generateQuestionMarksFrom_eq k _ _ _ (by omega)]
  simp

theorem intercalate_go_eq (sep : String) (rest : List String) (acc : String) :
    String.intercalate.go acc sep rest = rest.foldl (fun b s => b ++ sep ++ s) acc := by
  induction rest generalizing acc with
  | nil => rfl
  | cons x xs ih => simp [String.intercalate.go, ih]

theorem stringsJoin_eq_intercalate (elems : List String) (sep : String) :
    stringsJoin elems sep = sep.intercalate elems := by
  cases elems with
  | nil => rfl
  | cons e rest =>
    cases rest with
    | nil => rfl
    | cons f fs => simp [stringsJoin, String.intercalate, intercalate_go_eq]

theorem sprintf_insert (a b : String) :
    sprintf "INSERT INTO domain (%s) VALUES (%s)" [a, b]
      = "INSERT INTO domain (" ++ a ++ ") VALUES (" ++ b ++ ")" := by
  apply String.ext
  simp only [sprintf, String.data_append]
  simp [sprintfChars]

theorem insertQuery_eq (dataHeaders : List String) :
    insertQuery dataHeaders
      = "INSERT INTO domain (" ++ ",".intercalate dataHeaders ++ ") VALUES ("
          ++ ",".intercalate (List.replicate dataHeaders.length "?") ++ ")" := by
  rw [insertQuery, sprintf_insert, stringsJoin_eq_intercalate, stringsJoin_eq_intercalate,
    generateQuestionMarks_eq]

/-- The statement for the two-column schema of the end-to-end scenario. -/
theorem insertQuery_id_name :
    insertQuery ["id", "name"] = "INSERT INTO domain (id,name) VALUES (?,?)" := by
  rw [insertQuery_eq]
  decide

/-! ## One job: lemmas -/

theorem queriesOf_append (a b : List Event) :
    queriesOf (a ++ b) = queriesOf a ++ queriesOf b := by
  induction a with
  | nil => rfl
  | cons x xs ih => cases x <;> simp [queriesOf, ih]

theorem insertCount_append (a b : List Event) :
    insertCount (a ++ b) = insertCount a + insertCount b := by
  induction a with
  | nil => simp [insertCount]
  | cons x xs ih =>
    cases x
    all_goals simp [insertCount, ih]
    all_goals omega

theorem doneCount_append (a b : List Event) :
    doneCount (a ++ b) = doneCount a + doneCount b := by
  induction a with
  | nil => simp [doneCount]
  | cons x xs ih =>
    cases x
    all_goals simp [doneCount, ih]
    all_goals omega

theorem heldAtStarts_append (a b : List Event) :
    heldAtStarts (a ++ b) = heldAtStarts a ++ heldAtStarts b := by
  induction a with
  | nil => rfl
  | cons x xs ih => cases x <;> simp [heldAtStarts, ih]

/-- Every statement text an attempt hands to `ExecContext` is `insertQuery`. -/
theorem attemptOnce_queries (dataHeaders : List String) (values : Job) (a : Attempt) (db : Db)
    (h : ∀ q ∈ queriesOf db.log, q = insertQuery dataHeaders) :
    ∀ q ∈ queriesOf (attemptOnce dataHeaders values a db).2.log, q = insertQuery dataHeaders := by
  obtain ⟨c, e, cl⟩ := a
  cases c <;> cases e <;> cases cl <;>
    simp only [attemptOnce, Db.emit, queriesOf_append, queriesOf, List.append_nil,
      List.mem_append, List.mem_singleton] <;>
    intro q hq <;> aesop

theorem doTheJobLoop_queries (dataHeaders : List String) (values : Job)
    (script : List Attempt) (db : Db)
    (h : ∀ q ∈ queriesOf db.log, q = insertQuery dataHeaders) :
    ∀ q ∈ queriesOf (doTheJobLoop dataHeaders values script db).2.log,
      q = insertQuery dataHeaders := by
  induction script generalizing db with
  | nil => simpa [doTheJobLoop] using h
  | cons a rest ih =>
    have hstart : ∀ q ∈ queriesOf (db.emit (Event.attemptStart db.held)).log,
        q = insertQuery dataHeaders := by
      simpa [Db.emit, queriesOf_append, queriesOf] using h
    have hatt := attemptOnce_queries dataHeaders values a _ hstart
    simp only [doTheJobLoop]
    cases hres : attemptOnce dataHeaders values a (db.emit (Event.attemptStart db.held)) with
    | mk ex db' =>
      rw [hres] at hatt
      cases ex with
      | normal => exact hatt
      | recovered m => exact ih db' hatt
      | fatal m => exact hatt

theorem doTheJob_queries (workerIndex counter : Nat) (dataHeaders : List String)
    (values : Job) (script : List Attempt) :
    ∀ q ∈ queriesOf (doTheJob workerIndex counter dataHeaders values script Db.start).2.log,
      q = insertQuery dataHeaders := by
  have hloop := doTheJobLoop_queries dataHeaders values script Db.start (by simp [Db.start, queriesOf])
  simp only [doTheJob]
  cases hres : doTheJobLoop dataHeaders values script Db.start with
  | mk ex db' =>
    rw [hres] at hloop
    cases ex with
    | returned =>
      by_cases hc : counter % 100 = 0
      · simpa [hc, Db.emit, queriesOf_append, queriesOf] using hloop
      · simpa [hc] using hloop
    | processExit m => exact hloop
    | retrying => exact hloop

/-! ## Statement text: the claim -/

/-- C6: for every schema the insert statement built in `doTheJob` is
`INSERT INTO domain (c1,...,ck) VALUES (?,...,?)`: the column names in schema
order separated by commas, and one `?` per column, `generateQuestionMarks(k)`
being exactly `k` of them; the text depends on the schema only, so every
attempt of every worker hands the same text to `ExecContext`. -/
theorem insert_statement_shape (dataHeaders : List String) :
    insertQuery dataHeaders
      = "INSERT INTO domain (" ++ ",".intercalate dataHeaders ++ ") VALUES ("
          ++ ",".intercalate (List.replicate dataHeaders.length "?") ++ ")"
    ∧ generateQuestionMarks (dataHeaders.length : Int) = List.replicate dataHeaders.length "?"
    ∧ (generateQuestionMarks (dataHeaders.length : Int)).length = dataHeaders.length
    ∧ ∀ (workerIndex counter : Nat) (values : Job) (script : List Attempt),
        ∀ q ∈ queriesOf (doTheJob workerIndex counter dataHeaders values script Db.start).2.log,
          q = insertQuery dataHeaders := by
  refine ⟨insertQuery_eq dataHeaders, generateQuestionMarks_eq _, ?_, ?_⟩
  · rw [generateQuestionMarks_eq]; simp
  · intro workerIndex counter values script
    exact doTheJob_queries workerIndex counter dataHeaders values script

/-! ## One job: retries -/

theorem insertsOf_append (a b : List Event) :
    insertsOf (a ++ b) = insertsOf a ++ insertsOf b := by
  induction a with
  | nil => rfl
  | cons x xs ih => cases x <;> simp [insertsOf, ih]

theorem insertCount_eq_length (log : List Event) :
    insertCount log = (insertsOf log).length := by
  induction log with
  | nil => rfl
  | cons x xs ih => cases x <;> simp [insertCount, insertsOf, ih]

/-- An attempt that fails by a panic is recovered; it has inserted the row
exactly when the panic came at the release stage. -/
theorem attemptOnce_of_panic (dataHeaders : List String) (values : Job) (a : Attempt) (db : Db)
    (h : a.panics = true) :
    (∃ m, (attemptOnce dataHeaders values a db).1 = AttemptExit.recovered m)
    ∧ insertsOf (attemptOnce dataHeaders values a db).2.log
        = insertsOf db.log
          ++ (if a.panicsAtRelease = true then [(insertQuery dataHeaders, values)] else [])
    ∧ doneCount (attemptOnce dataHeaders values a db).2.log = doneCount db.log
    ∧ heldAtStarts (attemptOnce dataHeaders values a db).2.log = heldAtStarts db.log := by
  obtain ⟨c, e, cl⟩ := a
  cases c <;> cases e <;> cases cl <;>
    simp [Attempt.panics] at h <;>
    simp [attemptOnce, Db.emit, insertsOf_append, insertsOf, doneCount_append, doneCount,
      heldAtStarts_append, heldAtStarts, Attempt.panicsAtRelease]

/-- An attempt in which every call succeeds returns normally after one insert
of the job's values. -/
theorem attemptOnce_good (dataHeaders : List String) (values : Job) (db : Db) :
    attemptOnce dataHeaders values Attempt.good db
      = (AttemptExit.normal,
          { held := db.held,
            log := db.log ++ [Event.connOpened,
              Event.inserted (insertQuery dataHeaders) values, Event.connClosed] }) := by
  simp [attemptOnce, Attempt.good, Db.emit]

theorem doTheJobLoop_after_panics (dataHeaders : List String) (values : Job)
    (failed later : List Attempt) (db : Db)
    (hfail : ∀ a ∈ failed, a.panics = true) :
    (doTheJobLoop dataHeaders values (failed ++ Attempt.good :: later) db).1 = JobExit.returned
    ∧ insertsOf (doTheJobLoop dataHeaders values (failed ++ Attempt.good :: later) db).2.log
        = insertsOf db.log
          ++ List.replicate (failed.countP Attempt.panicsAtRelease + 1)
              (insertQuery dataHeaders, values)
    ∧ doneCount (doTheJobLoop dataHeaders values (failed ++ Attempt.good :: later) db).2.log
        = doneCount db.log
    ∧ (heldAtStarts
          (doTheJobLoop dataHeaders values (failed ++ Attempt.good :: later) db).2.log).length
        = (heldAtStarts db.log).length + failed.length + 1 := by
  induction failed generalizing db with
  | nil =>
    simp [doTheJobLoop, attemptOnce_good, Db.emit, insertsOf_append, insertsOf,
      doneCount_append, doneCount, heldAtStarts_append, heldAtStarts]
  | cons a rest ih =>
    have ha := attemptOnce_of_panic dataHeaders values a (db.emit (Event.attemptStart db.held))
      (hfail a (by simp))
    obtain ⟨⟨m, hm⟩, hi, hd, hh⟩ := ha
    have hrest := fun db' => ih db' (fun b hb => hfail b (by simp [hb]))
    simp only [List.cons_append, doTheJobLoop]
    cases hres : attemptOnce dataHeaders values a (db.emit (Event.attemptStart db.held)) with
    | mk ex db' =>
      rw [hres] at hm hi hd hh
      simp only at hm hi hd hh
      subst hm
      simp only [List.append_eq]
      obtain ⟨h1, h2, h3, h4⟩ := hrest db'
      refine ⟨h1, ?_, ?_, ?_⟩
      · rw [h2, hi, List.countP_cons]
        by_cases hrel : a.panicsAtRelease = true
        · simp [hrel, Db.emit, insertsOf_append, insertsOf, List.replicate_succ]
        · simp [hrel, Db.emit, insertsOf_append, insertsOf]
      · rw [h3, hd]; simp [Db.emit, doneCount_append, doneCount]
      · rw [h4, hh]; simp [Db.emit, heldAtStarts_append, heldAtStarts]; omega

/-! ## One job: the claims -/

/-- C2: the code at a persistence failure reported as an error. With an error
from `db.Conn`, from `ExecContext` or from `conn.Close` in the first attempt,
and a second attempt that would succeed, `doTheJob` does not try again:
`log.Fatal` ends the process after the single attempt, with nothing inserted.
The same failure raised as a panic is recovered and the job is tried again. -/
theorem doTheJob_error_ends_process :
    (doTheJob 0 0 ["id", "name"] ["1", "a"]
        [⟨Outcome.error "conn", Outcome.ok, Outcome.ok⟩, Attempt.good] Db.start).1
      = JobExit.processExit "conn"
    ∧ (doTheJob 0 0 ["id", "name"] ["1", "a"]
        [⟨Outcome.ok, Outcome.error "exec", Outcome.ok⟩, Attempt.good] Db.start).1
      = JobExit.processExit "exec"
    ∧ (doTheJob 0 0 ["id", "name"] ["1", "a"]
        [⟨Outcome.ok, Outcome.ok, Outcome.error "close"⟩, Attempt.good] Db.start).1
      = JobExit.processExit "close"
    ∧ heldAtStarts (doTheJob 0 0 ["id", "name"] ["1", "a"]
        [⟨Outcome.error "conn", Outcome.ok, Outcome.ok⟩, Attempt.good] Db.start).2.log = [0]
    ∧ insertCount (doTheJob 0 0 ["id", "name"] ["1", "a"]
        [⟨Outcome.error "conn", Outcome.ok, Outcome.ok⟩, Attempt.good] Db.start).2.log = 0
    ∧ (doTheJob 0 0 ["id", "name"] ["1", "a"]
        [⟨Outcome.panic "conn", Outcome.ok, Outcome.ok⟩, Attempt.good] Db.start).1
      = JobExit.returned
    ∧ heldAtStarts (doTheJob 0 0 ["id", "name"] ["1", "a"]
        [⟨Outcome.panic "conn", Outcome.ok, Outcome.ok⟩, Attempt.good] Db.start).2.log
      = [0, 0] := by
  refine ⟨?_, ?_, ?_, ?_, ?_, ?_, ?_⟩ <;>
    simp [doTheJob, doTheJobLoop, attemptOnce, Attempt.good, Db.emit, Db.start, heldAtStarts,
      insertCount]

/-- C4, as stated, fails: one attempt that fails at the release stage (a panic
in `conn.Close`, after the statement has taken effect) followed by an attempt
that succeeds makes the insert take effect twice for the one job. -/
theorem release_failure_inserts_twice :
    Attempt.fails ⟨Outcome.ok, Outcome.ok, Outcome.panic "close"⟩ = true
    ∧ Attempt.fails Attempt.good = false
    ∧ (workerHandle 0 0 ["id", "name"] ["1", "a"]
        [⟨Outcome.ok, Outcome.ok, Outcome.panic "close"⟩, Attempt.good] Db.start).1
      = JobExit.returned
    ∧ insertCount (workerHandle 0 0 ["id", "name"] ["1", "a"]
        [⟨Outcome.ok, Outcome.ok, Outcome.panic "close"⟩, Attempt.good] Db.start).2.2.log = 2
    ∧ doneCount (workerHandle 0 0 ["id", "name"] ["1", "a"]
        [⟨Outcome.ok, Outcome.ok, Outcome.panic "close"⟩, Attempt.good] Db.start).2.2.log
      = 1 := by
  refine ⟨rfl, rfl, ?_, ?_, ?_⟩ <;>
    simp [workerHandle, doTheJob, doTheJobLoop, attemptOnce, Attempt.good, Db.emit, Db.start,
      insertCount, doneCount]

/-- C4, amended: for every job and every K, if the first K attempts each fail by
a panic that is recovered, at the acquire, the execute or the release stage,
and the next attempt succeeds, then `doTheJob` returns after K+1 attempts and
the worker calls `wg.Done` exactly once, as the last thing it does for the job.
Each insert that has taken effect is of the job's values, and there is one for
the attempt that succeeds and one for each failure at the release stage: the
insert has taken effect exactly once when no failure is at the release
stage. -/
theorem retry_after_recovered_failures (workerIndex counter : Nat)
    (dataHeaders : List String) (job : Job) (failed later : List Attempt)
    (hfail : ∀ a ∈ failed, a.panics = true) :
    (workerHandle workerIndex counter dataHeaders job
        (failed ++ Attempt.good :: later) Db.start).1 = JobExit.returned
    ∧ (workerHandle workerIndex counter dataHeaders job
        (failed ++ Attempt.good :: later) Db.start).2.1 = counter + 1
    ∧ (heldAtStarts (workerHandle workerIndex counter dataHeaders job
        (failed ++ Attempt.good :: later) Db.start).2.2.log).length = failed.length + 1
    ∧ doneCount (workerHandle workerIndex counter dataHeaders job
        (failed ++ Attempt.good :: later) Db.start).2.2.log = 1
    ∧ (workerHandle workerIndex counter dataHeaders job
        (failed ++ Attempt.good :: later) Db.start).2.2.log.getLast? = some Event.wgDone
    ∧ insertsOf (workerHandle workerIndex counter dataHeaders job
        (failed ++ Attempt.good :: later) Db.start).2.2.log
        = List.replicate (failed.countP Attempt.panicsAtRelease + 1)
            (insertQuery dataHeaders, job)
    ∧ insertCount (workerHandle workerIndex counter dataHeaders job
        (failed ++ Attempt.good :: later) Db.start).2.2.log
        = failed.countP Attempt.panicsAtRelease + 1
    ∧ ((∀ a ∈ failed, a.panicsAtRelease = false) →
        insertCount (workerHandle workerIndex counter dataHeaders job
          (failed ++ Attempt.good :: later) Db.start).2.2.log = 1) := by
  obtain ⟨h1, h2, h3, h4⟩ :=
    doTheJobLoop_after_panics dataHeaders job failed later Db.start hfail
  have hins : insertsOf (workerHandle workerIndex counter dataHeaders job
        (failed ++ Attempt.good :: later) Db.start).2.2.log
        = List.replicate (failed.countP Attempt.panicsAtRelease + 1)
            (insertQuery dataHeaders, job) := by
    simp only [workerHandle, doTheJob]
    cases hres : doTheJobLoop dataHeaders job (failed ++ Attempt.good :: later) Db.start with
    | mk ex db' =>
      rw [hres] at h1 h2
      simp only at h1 h2
      subst h1
      simp only [Db.start, insertsOf, List.nil_append] at h2
      by_cases hc : counter % 100 = 0 <;>
        simp [hc, Db.emit, insertsOf_append, insertsOf, h2]
  have hcount : insertCount (workerHandle workerIndex counter dataHeaders job
        (failed ++ Attempt.good :: later) Db.start).2.2.log
        = failed.countP Attempt.panicsAtRelease + 1 := by
    rw [insertCount_eq_length, hins, List.length_replicate]
  refine ⟨?_, ?_, ?_, ?_, ?_, hins, hcount, ?_⟩
  rotate_right
  · intro hnone
    rw [hcount]
    have : failed.countP Attempt.panicsAtRelease = 0 := by
      rw [List.countP_eq_zero]
      intro a ha
      simp [hnone a ha]
    omega
  all_goals
    simp only [workerHandle, doTheJob]
    cases hres : doTheJobLoop dataHeaders job (failed ++ Attempt.good :: later) Db.start with
    | mk ex db' =>
      rw [hres] at h1 h3 h4
      simp only at h1 h3 h4
      subst h1
      simp only [Db.start, doneCount, heldAtStarts, List.length_nil] at h3 h4
      by_cases hc : counter % 100 = 0 <;>
        simp [hc, Db.emit, doneCount_append, doneCount, heldAtStarts_append, heldAtStarts,
          h3, h4]

theorem retry_after_recovered_failures_witness :
    (∀ a ∈ [(⟨Outcome.panic "conn", Outcome.ok, Outcome.ok⟩ : Attempt),
          ⟨Outcome.ok, Outcome.panic "exec", Outcome.ok⟩,
          ⟨Outcome.ok, Outcome.ok, Outcome.panic "close"⟩], a.panics = true)
    ∧ (heldAtStarts (workerHandle 7 100 ["id", "name"] ["1", "a"]
        ([⟨Outcome.panic "conn", Outcome.ok, Outcome.ok⟩,
          ⟨Outcome.ok, Outcome.panic "exec", Outcome.ok⟩,
          ⟨Outcome.ok, Outcome.ok, Outcome.panic "close"⟩] ++ Attempt.good :: [])
        Db.start).2.2.log).length = 4
    ∧ doneCount (workerHandle 7 100 ["id", "name"] ["1", "a"]
        ([⟨Outcome.panic "conn", Outcome.ok, Outcome.ok⟩,
          ⟨Outcome.ok, Outcome.panic "exec", Outcome.ok⟩,
          ⟨Outcome.ok, Outcome.ok, Outcome.panic "close"⟩] ++ Attempt.good :: [])
        Db.start).2.2.log = 1
    ∧ insertCount (workerHandle 7 100 ["id", "name"] ["1", "a"]
        ([⟨Outcome.panic "conn", Outcome.ok, Outcome.ok⟩,
          ⟨Outcome.ok, Outcome.panic "exec", Outcome.ok⟩,
          ⟨Outcome.ok, Outcome.ok, Outcome.panic "close"⟩] ++ Attempt.good :: [])
        Db.start).2.2.log = 2 :=
  ⟨by decide,
    (retry_after_recovered_failures 7 100 ["id", "name"] ["1", "a"]
      [⟨Outcome.panic "conn", Outcome.ok, Outcome.ok⟩,
        ⟨Outcome.ok, Outcome.panic "exec", Outcome.ok⟩,
        ⟨Outcome.ok, Outcome.ok, Outcome.panic "close"⟩] [] (by decide)).2.2.1,
    (retry_after_recovered_failures 7 100 ["id", "name"] ["1", "a"]
      [⟨Outcome.panic "conn", Outcome.ok, Outcome.ok⟩,
        ⟨Outcome.ok, Outcome.panic "exec", Outcome.ok⟩,
        ⟨Outcome.ok, Outcome.ok, Outcome.panic "close"⟩] [] (by decide)).2.2.2.1,
    (retry_after_recovered_failures 7 100 ["id", "name"] ["1", "a"]
      [⟨Outcome.panic "conn", Outcome.ok, Outcome.ok⟩,
        ⟨Outcome.ok, Outcome.panic "exec", Outcome.ok⟩,
        ⟨Outcome.ok, Outcome.ok, Outcome.panic "close"⟩] [] (by decide)).2.2.2.2.2.2.1⟩

/-- C10: the code at a panic in `ExecContext`. The connection acquired by the
first attempt is not released: the second attempt starts with one connection
held, and after `doTheJob` has returned one connection is still held. When
`ExecContext` returns an error instead, the process ends with the connection
still held. -/
theorem exec_panic_leaks_connection :
    heldAtStarts (doTheJob 0 0 ["id", "name"] ["1", "a"]
        [⟨Outcome.ok, Outcome.panic "exec", Outcome.ok⟩, Attempt.good] Db.start).2.log = [0, 1]
    ∧ (doTheJob 0 0 ["id", "name"] ["1", "a"]
        [⟨Outcome.ok, Outcome.panic "exec", Outcome.ok⟩, Attempt.good] Db.start).1
      = JobExit.returned
    ∧ (doTheJob 0 0 ["id", "name"] ["1", "a"]
        [⟨Outcome.ok, Outcome.panic "exec", Outcome.ok⟩, Attempt.good] Db.start).2.held = 1
    ∧ doTheJob 0 1 ["id", "name"] ["1", "a"]
        [⟨Outcome.ok, Outcome.error "exec", Outcome.ok⟩, Attempt.good] Db.start
      = (JobExit.processExit "exec",
          { held := 1
            log := [Event.attemptStart 0, Event.connOpened,
              Event.execFailed (insertQuery ["id", "name"]) ["1", "a"]] }) := by
  refine ⟨?_, ?_, ?_, ?_⟩ <;>
    simp [doTheJob, doTheJobLoop, attemptOnce, Attempt.good, Db.emit, Db.start, heldAtStarts]

/-! ## The pool: the claim -/

theorem dispatchWorkerFrom_eq (k : Nat) :
    ∀ (workerIndex : Nat) (started : List Nat), totalWorker + 1 - workerIndex = k →
      dispatchWorkerFrom workerIndex started
        = started ++ (List.range k).map (fun j => workerIndex + j) := by
  induction k with
  | zero =>
    intro workerIndex started h
    rw [dispatchWorkerFrom, if_neg (by omega)]
    simp
  | succ k ih =>
    intro workerIndex started h
    rw [dispatchWorkerFrom, if_pos (by omega), ih (workerIndex + 1) _ (by omega)]
    simp only [List.append_assoc, List.range_succ_eq_map, List.map_cons, List.map_map]
    simp only [List.singleton_append, Nat.add_zero]
    congr 2
    apply List.map_congr_left
    intro j _
    simp only [Function.comp]
    omega

/-- C5: the code's pool. The loop of `dispatchWorker` runs for
`workerIndex = 0, ..., totalWorker` inclusive, so it starts `totalWorker + 1`,
that is 101, worker goroutines and not `totalWorker`. -/
theorem dispatchWorker_starts_one_more :
    dispatchWorker = List.range (totalWorker + 1)
    ∧ dispatchWorker.length = 101
    ∧ dispatchWorker.length ≠ totalWorker := by
  have h : dispatchWorker = List.range (totalWorker + 1) := by
    rw [dispatchWorker, dispatchWorkerFrom_eq (totalWorker + 1) 0 [] (by omega)]
    simp
  refine ⟨h, ?_, ?_⟩ <;> rw [h] <;> simp [totalWorker]

/-! ## The goroutines together: lemmas -/

theorem counts_tail (js : List Job) :
    addCount (dispatchActions js ++ [Action.close, Action.wgWait]) = js.length
    ∧ (pushed (dispatchActions js ++ [Action.close, Action.wgWait])).length = js.length := by
  simp [addCount_append, addCount_dispatchActions, pushed_append, pushed_dispatchActions,
    addCount, pushed]

theorem shape_goDispatch {rest : List Action}
    (h : ProgShape (Action.goDispatchWorker :: rest)) :
    ∃ js, rest = dispatchActions js ++ [Action.close, Action.wgWait] := by
  rcases h with ⟨js, h⟩ | ⟨js, h⟩ | ⟨j, js, h⟩ | h | h
  · exact ⟨js, by simpa using h⟩
  · cases js <;> simp [dispatchActions] at h
  · simp at h
  · simp at h
  · simp at h

theorem shape_add {delta : Nat} {rest : List Action}
    (h : ProgShape (Action.wgAdd delta :: rest)) :
    delta = 1 ∧ ∃ j js,
      rest = Action.send j :: (dispatchActions js ++ [Action.close, Action.wgWait]) := by
  rcases h with ⟨js, h⟩ | ⟨js, h⟩ | ⟨j, js, h⟩ | h | h
  · simp at h
  · cases js with
    | nil => simp [dispatchActions] at h
    | cons j js =>
      rw [dispatchActions_cons] at h
      simp only [List.cons_append, List.cons.injEq, Action.wgAdd.injEq] at h
      exact ⟨h.1, j, js, h.2⟩
  · simp at h
  · simp at h
  · simp at h

theorem shape_send {j : Job} {rest : List Action}
    (h : ProgShape (Action.send j :: rest)) :
    ∃ js, rest = dispatchActions js ++ [Action.close, Action.wgWait] := by
  rcases h with ⟨js, h⟩ | ⟨js, h⟩ | ⟨j', js, h⟩ | h | h
  · simp at h
  · cases js <;> simp [dispatchActions] at h
  · simp only [List.cons.injEq] at h
    exact ⟨js, h.2⟩
  · simp at h
  · simp at h

theorem shape_close {rest : List Action}
    (h : ProgShape (Action.close :: rest)) : rest = [Action.wgWait] := by
  rcases h with ⟨js, h⟩ | ⟨js, h⟩ | ⟨j, js, h⟩ | h | h
  · simp at h
  · cases js with
    | nil => simpa [dispatchActions] using h
    | cons j js => simp [dispatchActions] at h
  · simp at h
  · simp at h
  · simp at h

theorem shape_wait {rest : List Action}
    (h : ProgShape (Action.wgWait :: rest)) : rest = [] := by
  rcases h with ⟨js, h⟩ | ⟨js, h⟩ | ⟨j, js, h⟩ | h | h
  · simp at h
  · cases js <;> simp [dispatchActions] at h
  · simp at h
  · simpa using h
  · simp at h

theorem shape_adds_le {prog : List Action} (h : ProgShape prog) :
    addCount prog ≤ (pushed prog).length := by
  rcases h with ⟨js, h⟩ | ⟨js, h⟩ | ⟨j, js, h⟩ | h | h <;> subst h
  · have := counts_tail js
    simp only [addCount, pushed]; omega
  · have := counts_tail js
    omega
  · have := counts_tail js
    simp only [addCount, pushed, List.length_cons]; omega
  · simp [addCount, pushed]
  · simp [addCount, pushed]

theorem busyCount_append_waiting (ws : List WorkerPc) :
    busyCount (ws ++ [WorkerPc.waiting]) = busyCount ws := by
  induction ws with
  | nil => rfl
  | cons w ws ih => cases w <;> simp [busyCount, ih]

theorem persistedCount_append_waiting (ws : List WorkerPc) :
    persistedCount (ws ++ [WorkerPc.waiting]) = persistedCount ws := by
  induction ws with
  | nil => rfl
  | cons w ws ih => cases w <;> simp [persistedCount, ih]

/-- Replacing worker `i` changes the count of busy workers by that worker's
own change. -/
theorem busyCount_set (ws : List WorkerPc) (i : Nat) (w w' : WorkerPc)
    (h : ws[i]? = some w) :
    busyCount (ws.set i w') + busyCount [w] = busyCount ws + busyCount [w'] := by
  induction ws generalizing i with
  | nil => simp at h
  | cons x xs ih =>
    cases i with
    | zero =>
      simp only [List.getElem?_cons_zero, Option.some.injEq] at h
      subst h
      cases x <;> cases w' <;> simp [busyCount]
    | succ i =>
      simp only [List.getElem?_cons_succ] at h
      have := ih i h
      cases x <;> simp only [List.set_cons_succ, busyCount] <;> omega

theorem persistedCount_set (ws : List WorkerPc) (i : Nat) (w w' : WorkerPc)
    (h : ws[i]? = some w) :
    persistedCount (ws.set i w') + persistedCount [w]
      = persistedCount ws + persistedCount [w'] := by
  induction ws generalizing i with
  | nil => simp at h
  | cons x xs ih =>
    cases i with
    | zero =>
      simp only [List.getElem?_cons_zero, Option.some.injEq] at h
      subst h
      cases x <;> cases w' <;> simp [persistedCount]
    | succ i =>
      simp only [List.getElem?_cons_succ] at h
      have := ih i h
      cases x <;> simp only [List.set_cons_succ, persistedCount] <;> omega

/-- The invariant holds at the start. -/
theorem inv_init (csvReader : CsvReader) (poolSize : Nat) :
    (Pool.init csvReader poolSize).Inv
      (pushed (readCsvFilePerLineThenSendToWorker csvReader Producer.start).trace).length := by
  have h2 := mainPipeline_trace csvReader
  generalize pushed (readCsvFilePerLineThenSendToWorker csvReader Producer.start).trace = js
    at h2
  have hc := counts_tail js
  refine ⟨rfl, ?_, ?_, ?_, ?_, ?_, ?_, ?_, ?_, ?_, ?_⟩ <;>
    simp only [Pool.init, h2] <;>
    first
    | exact Or.inl ⟨js, rfl⟩
    | simp [busyCount, persistedCount, addCount, pushed, hc.1, hc.2]

theorem inv_stepMain {H : Nat} {s s' : Pool} (hi : s.Inv H) (h : s.stepMain = some s') :
    s'.Inv H := by
  obtain ⟨h1, h2, h3, h4, h5, h6, h7, h8, h9, h10, h11⟩ := hi
  have hle := shape_adds_le h2
  unfold Pool.stepMain at h
  split at h
  · next rest hp =>
    rw [hp] at h2 h6 h7
    obtain ⟨js, hjs⟩ := shape_goDispatch h2
    simp only [Option.some.injEq] at h
    subst h
    refine ⟨h1, ?_, h3, h4, h5, ?_, ?_, h8, h9, ?_, ?_⟩
    · exact Or.inr (Or.inl ⟨js, hjs⟩)
    · simpa [addCount] using h6
    · simpa [pushed] using h7
    · intro hr
      have := h10 hr
      rw [hp] at this
      simp at this
    · intro hcl
      have := h11 hcl
      rw [hp] at this
      simpa [pushed, addCount] using this
  · next delta rest hp =>
    rw [hp] at h2 h6 h7
    obtain ⟨hd, j, js, hjs⟩ := shape_add h2
    simp only [Option.some.injEq] at h
    subst h
    subst hd
    rw [hp] at hle
    simp only [addCount, pushed] at h6 h7 hle
    refine ⟨h1, ?_, ?_, h4, h5, ?_, ?_, h8, ?_, ?_, ?_⟩
    rotate_right
    · intro hcl
      have := (h11 hcl).2
      rw [hp] at this
      simp [addCount] at this
    · exact Or.inr (Or.inr (Or.inl ⟨j, js, hjs⟩))
    · simp only [h3]; push_cast; ring
    · simp only; omega
    · simpa using h7
    · simp only
      intro hz
      exfalso
      have : (s.received : Int) ≤ s.adds := by
        have : s.received ≤ s.adds := by omega
        exact_mod_cast this
      have : (s.dones : Int) ≤ s.received := by
        have : s.dones ≤ s.received := by omega
        exact_mod_cast this
      omega
    · intro hr
      have := h10 hr
      rw [hp] at this
      simp at this
  · next rest hp =>
    rw [hp] at h2 h6 h7
    have hrest := shape_close h2
    simp only [Option.some.injEq] at h
    subst h
    refine ⟨h1, ?_, h3, h4, h5, ?_, ?_, h8, h9, ?_, ?_⟩
    · exact Or.inr (Or.inr (Or.inr (Or.inl hrest)))
    · simpa [addCount] using h6
    · simpa [pushed] using h7
    · intro hr
      have := h10 hr
      rw [hp] at this
      simp at this
    · intro _
      simp [hrest, pushed, addCount]
  · next rest hp =>
    rw [hp] at h2 h6 h7
    have hrest := shape_wait h2
    split at h
    · next hz =>
      simp only [Option.some.injEq] at h
      subst h
      refine ⟨h1, ?_, h3, h4, h5, ?_, ?_, h8, h9, ?_, ?_⟩
      · exact Or.inr (Or.inr (Or.inr (Or.inr hrest)))
      · simpa [addCount] using h6
      · simpa [pushed] using h7
      · intro _
        exact ⟨hrest, hz⟩
      · intro _
        simp [hrest, pushed, addCount]
    · simp at h
  · simp at h
  · simp at h

theorem inv_stepSpawn {H : Nat} {s s' : Pool} (hi : s.Inv H) (h : s.stepSpawn = some s') :
    s'.Inv H := by
  obtain ⟨h1, h2, h3, h4, h5, h6, h7, h8, h9, h10, h11⟩ := hi
  unfold Pool.stepSpawn at h
  split at h
  · simp only [Option.some.injEq] at h
    subst h
    exact ⟨h1, h2, h3, by simpa [busyCount_append_waiting] using h4,
      by simpa [persistedCount_append_waiting] using h5, h6, h7, h8, h9, h10, h11⟩
  · simp at h

theorem inv_stepRecv {H : Nat} {s s' : Pool} {i : Nat} (hi : s.Inv H)
    (h : s.stepRecv i = some s') : s'.Inv H := by
  obtain ⟨h1, h2, h3, h4, h5, h6, h7, h8, h9, h10, h11⟩ := hi
  unfold Pool.stepRecv at h
  split at h
  · next job rest hp hw =>
    rw [hp] at h2 h6 h7
    obtain ⟨js, hjs⟩ := shape_send h2
    simp only [Option.some.injEq] at h
    subst h
    have hb := busyCount_set s.workers i _ (WorkerPc.working job) hw
    have hpc := persistedCount_set s.workers i _ (WorkerPc.working job) hw
    simp only [busyCount, persistedCount] at hb hpc
    simp only [addCount, pushed, List.length_cons] at h6 h7
    refine ⟨h1, ?_, h3, ?_, ?_, h6, ?_, h8, h9, ?_, ?_⟩
    · exact Or.inr (Or.inl ⟨js, hjs⟩)
    · simp only; omega
    · simp only; omega
    · simp only; omega
    · intro hr
      have := h10 hr
      rw [hp] at this
      simp at this
    · intro hcl
      have := (h11 hcl).1
      rw [hp] at this
      simp [pushed] at this
  · simp at h

theorem inv_stepPersist {H : Nat} {s s' : Pool} {i : Nat} (hi : s.Inv H)
    (h : s.stepPersist i = some s') : s'.Inv H := by
  obtain ⟨h1, h2, h3, h4, h5, h6, h7, h8, h9, h10, h11⟩ := hi
  unfold Pool.stepPersist at h
  split at h
  · next job hw =>
    simp only [Option.some.injEq] at h
    subst h
    have hb := busyCount_set s.workers i _ (WorkerPc.persisted job) hw
    have hpc := persistedCount_set s.workers i _ (WorkerPc.persisted job) hw
    simp only [busyCount, persistedCount] at hb hpc
    refine ⟨h1, h2, h3, ?_, ?_, h6, h7, h8, h9, h10, h11⟩
    · simp only; omega
    · simp only; omega
  · simp at h

theorem inv_stepDone {H : Nat} {s s' : Pool} {i : Nat} (hi : s.Inv H)
    (h : s.stepDone i = some s') : s'.Inv H := by
  obtain ⟨h1, h2, h3, h4, h5, h6, h7, h8, h9, h10, h11⟩ := hi
  have hle := shape_adds_le h2
  unfold Pool.stepDone at h
  split at h
  · next job hw =>
    have hb := busyCount_set s.workers i _ WorkerPc.waiting hw
    have hpc := persistedCount_set s.workers i _ WorkerPc.waiting hw
    simp only [busyCount, persistedCount] at hb hpc
    have hpos : (s.dones : Int) + 1 ≤ s.adds := by
      have : s.dones + 1 ≤ s.adds := by omega
      exact_mod_cast this
    split at h
    · next hneg => omega
    · simp only [Option.some.injEq] at h
      subst h
      refine ⟨h1, h2, ?_, ?_, ?_, h6, h7, ?_, ?_, ?_, h11⟩
      · simp only [h3]; push_cast; ring
      · simp only; omega
      · simp only; omega
      · simp only; split <;> omega
      · simp only
        intro hz _
        rw [if_pos hz]; omega
      · intro hr
        have := (h10 hr).2
        omega
  · simp at h

theorem inv_stepExit {H : Nat} {s s' : Pool} {i : Nat} (hi : s.Inv H)
    (h : s.stepExit i = some s') : s'.Inv H := by
  obtain ⟨h1, h2, h3, h4, h5, h6, h7, h8, h9, h10, h11⟩ := hi
  unfold Pool.stepExit at h
  split at h
  · next hw =>
    have hb := busyCount_set s.workers i _ WorkerPc.exited hw
    have hpc := persistedCount_set s.workers i _ WorkerPc.exited hw
    simp only [busyCount, persistedCount] at hb hpc
    split at h
    · simp only [Option.some.injEq] at h
      subst h
      refine ⟨h1, h2, h3, ?_, ?_, h6, h7, h8, h9, h10, h11⟩
      · simp only; omega
      · simp only; omega
    · simp at h
  · simp at h

theorem inv_step {H : Nat} {s s' : Pool} {l : Label} (hi : s.Inv H)
    (h : s.step l = some s') : s'.Inv H := by
  unfold Pool.step at h
  split at h
  · simp at h
  · cases l with
    | main => exact inv_stepMain hi h
    | spawn => exact inv_stepSpawn hi h
    | recv i => exact inv_stepRecv hi h
    | persist i => exact inv_stepPersist hi h
    | done i => exact inv_stepDone hi h
    | exit i => exact inv_stepExit hi h

theorem inv_run {H : Nat} (sched : List Label) :
    ∀ {s s' : Pool}, s.Inv H → s.run sched = some s' → s'.Inv H := by
  induction sched with
  | nil =>
    intro s s' hi h
    simp only [Pool.run, Option.some.injEq] at h
    subst h
    exact hi
  | cons l ls ih =>
    intro s s' hi h
    simp only [Pool.run] at h
    cases hs : s.step l with
    | none => simp [hs] at h
    | some t =>
      rw [hs] at h
      exact ih (inv_step hi hs) h

theorem run_append (a b : List Label) :
    ∀ s : Pool, s.run (a ++ b) = (s.run a).bind (fun t => t.run b) := by
  induction a with
  | nil => intro s; rfl
  | cons l ls ih =>
    intro s
    simp only [List.cons_append, Pool.run]
    cases s.step l with
    | none => rfl
    | some t => exact ih t

/-! ## The goroutines together: progress -/

theorem startsPool_tail (js : List Job) :
    startsPool (dispatchActions js ++ [Action.close, Action.wgWait]) = false := by
  cases js <;> simp [dispatchActions, startsPool]

theorem tail_ne_nil (js : List Job) :
    dispatchActions js ++ [Action.close, Action.wgWait] ≠ [] := by
  simp

theorem workersWeight_append_waiting (ws : List WorkerPc) :
    workersWeight (ws ++ [WorkerPc.waiting]) = workersWeight ws + 1 := by
  induction ws with
  | nil => rfl
  | cons w ws ih => simp [workersWeight, ih]; omega

theorem workersWeight_set (ws : List WorkerPc) (i : Nat) (w w' : WorkerPc)
    (h : ws[i]? = some w) :
    workersWeight (ws.set i w') + workerWeight w = workersWeight ws + workerWeight w' := by
  induction ws generalizing i with
  | nil => simp at h
  | cons x xs ih =>
    cases i with
    | zero =>
      simp only [List.getElem?_cons_zero, Option.some.injEq] at h
      subst h
      simp only [List.set_cons_zero, workersWeight]
      omega
    | succ i =>
      simp only [List.getElem?_cons_succ] at h
      have := ih i h
      simp only [List.set_cons_succ, workersWeight]
      omega

theorem progWeight_tail (poolSize : Nat) (js : List Job) :
    progWeight poolSize (dispatchActions js ++ [Action.close, Action.wgWait])
      = 4 * js.length + 2 := by
  induction js with
  | nil => simp [dispatchActions, progWeight, actionWeight]
  | cons j js ih =>
    rw [dispatchActions_cons]
    simp only [List.cons_append, progWeight, actionWeight, List.length_cons, List.append_eq]
    rw [ih]
    omega

/-- Every step uses up some of the weight. -/
theorem weight_step {H : Nat} {s s' : Pool} {l : Label} (hi : s.Inv H)
    (h : s.step l = some s') : s'.weight < s.weight := by
  have hnp := (inv_step hi h).noPanic
  unfold Pool.step at h
  split at h
  · simp at h
  · cases l with
    | main =>
      simp only [Pool.stepMain] at h
      split at h
      · next rest hp =>
        simp only [Option.some.injEq] at h
        subst h
        simp only [Pool.weight, hp, progWeight, actionWeight]
        omega
      · next delta rest hp =>
        simp only [Option.some.injEq] at h
        subst h
        simp only [Pool.weight, hp, progWeight, actionWeight]
        omega
      · next rest hp =>
        simp only [Option.some.injEq] at h
        subst h
        simp only [Pool.weight, hp, progWeight, actionWeight]
        omega
      · next rest hp =>
        split at h
        · simp only [Option.some.injEq] at h
          subst h
          simp only [Pool.weight, hp, progWeight, actionWeight]
          omega
        · simp at h
      · simp at h
      · simp at h
    | spawn =>
      simp only [Pool.stepSpawn] at h
      split at h
      · simp only [Option.some.injEq] at h
        subst h
        simp only [Pool.weight, workersWeight_append_waiting]
        omega
      · simp at h
    | recv i =>
      simp only [Pool.stepRecv] at h
      split at h
      · next job rest hp hw =>
        simp only [Option.some.injEq] at h
        subst h
        have := workersWeight_set s.workers i _ (WorkerPc.working job) hw
        simp only [workerWeight] at this
        simp only [Pool.weight, hp, progWeight, actionWeight]
        omega
      · simp at h
    | persist i =>
      simp only [Pool.stepPersist] at h
      split at h
      · next job hw =>
        simp only [Option.some.injEq] at h
        subst h
        have := workersWeight_set s.workers i _ (WorkerPc.persisted job) hw
        simp only [workerWeight] at this
        simp only [Pool.weight]
        omega
      · simp at h
    | done i =>
      simp only [Pool.stepDone] at h
      split at h
      · next job hw =>
        split at h
        · simp only [Option.some.injEq] at h
          subst h
          simp at hnp
        · simp only [Option.some.injEq] at h
          subst h
          have := workersWeight_set s.workers i _ WorkerPc.waiting hw
          simp only [workerWeight] at this
          simp only [Pool.weight]
          omega
      · simp at h
    | exit i =>
      simp only [Pool.stepExit] at h
      split at h
      · next hw =>
        split at h
        · simp only [Option.some.injEq] at h
          subst h
          have := workersWeight_set s.workers i _ WorkerPc.exited hw
          simp only [workerWeight] at this
          simp only [Pool.weight]
          omega
        · simp at h
      · simp at h

/-- An execution is no longer than the weight it uses up. -/
theorem weight_run {H : Nat} (sched : List Label) :
    ∀ {s t : Pool}, s.Inv H → s.run sched = some t → t.weight + sched.length ≤ s.weight := by
  induction sched with
  | nil =>
    intro s t _ h
    simp only [Pool.run, Option.some.injEq] at h
    subst h
    simp
  | cons l ls ih =>
    intro s t hi h
    simp only [Pool.run] at h
    cases hs : s.step l with
    | none => simp [hs] at h
    | some u =>
      rw [hs] at h
      have h1 := weight_step hi hs
      have h2 := ih (inv_step hi hs) h
      simp only [List.length_cons]
      omega

theorem weight_init (csvReader : CsvReader) (poolSize : Nat) :
    (Pool.init csvReader poolSize).weight
      = 4 * (pushed (readCsvFilePerLineThenSendToWorker csvReader Producer.start).trace).length
        + 2 * poolSize + 3 := by
  simp only [Pool.weight, Pool.init, mainPipeline_trace, progWeight, actionWeight,
    progWeight_tail, workersWeight]
  omega

theorem live_init (csvReader : CsvReader) (poolSize : Nat) :
    (Pool.init csvReader poolSize).Live poolSize := by
  refine ⟨rfl, Or.inl ⟨?_, rfl, rfl⟩, ?_, ?_⟩
  · simp [Pool.init, mainPipeline_trace, startsPool]
  · simp [Pool.init]
  · simp [Pool.init, mainPipeline_trace]

theorem live_step {H N : Nat} {s s' : Pool} {l : Label} (hi : s.Inv H) (hl : s.Live N)
    (h : s.step l = some s') : s'.Live N := by
  obtain ⟨hsize, hstart, hexit, hfin⟩ := hl
  have hshape := hi.shape
  unfold Pool.step at h
  split at h
  · simp at h
  · cases l with
    | main =>
      simp only [Pool.stepMain] at h
      split at h
      · next rest hp =>
        rw [hp] at hshape hstart
        obtain ⟨js, hjs⟩ := shape_goDispatch hshape
        simp only [Option.some.injEq] at h
        subst h
        refine ⟨hsize, Or.inr ⟨?_, ?_⟩, hexit, ?_⟩
        · simp only [hjs, startsPool_tail]
        · rcases hstart with ⟨_, hw, _⟩ | ⟨hsp, _⟩
          · simp only [hw, List.length_nil]; omega
          · simp [startsPool] at hsp
        · simp only [hjs]
          intro hnil
          exact absurd hnil (tail_ne_nil js)
      · next delta rest hp =>
        rw [hp] at hshape hstart
        obtain ⟨_, j, js, hjs⟩ := shape_add hshape
        simp only [Option.some.injEq] at h
        subst h
        refine ⟨hsize, Or.inr ⟨?_, ?_⟩, hexit, ?_⟩
        · simp [hjs, startsPool]
        · rcases hstart with ⟨hsp, _, _⟩ | ⟨_, hlen⟩
          · simp [startsPool] at hsp
          · exact hlen
        · simp [hjs]
      · next rest hp =>
        rw [hp] at hshape hstart
        have hrest := shape_close hshape
        simp only [Option.some.injEq] at h
        subst h
        refine ⟨hsize, Or.inr ⟨?_, ?_⟩, fun _ => rfl, ?_⟩
        · simp [hrest, startsPool]
        · rcases hstart with ⟨hsp, _, _⟩ | ⟨_, hlen⟩
          · simp [startsPool] at hsp
          · exact hlen
        · simp [hrest]
      · next rest hp =>
        rw [hp] at hshape hstart
        have hrest := shape_wait hshape
        split at h
        · simp only [Option.some.injEq] at h
          subst h
          refine ⟨hsize, Or.inr ⟨?_, ?_⟩, hexit, fun _ => rfl⟩
          · simp [hrest, startsPool]
          · rcases hstart with ⟨hsp, _, _⟩ | ⟨_, hlen⟩
            · simp [startsPool] at hsp
            · exact hlen
        · simp at h
      · simp at h
      · simp at h
    | spawn =>
      simp only [Pool.stepSpawn] at h
      split at h
      · next hpos =>
        simp only [Option.some.injEq] at h
        subst h
        refine ⟨hsize, ?_, ?_, hfin⟩
        · rcases hstart with ⟨_, _, hz⟩ | ⟨hsp, hlen⟩
          · omega
          · refine Or.inr ⟨hsp, ?_⟩
            simp only [List.length_append, List.length_singleton]
            omega
        · intro hmem
          simp only [List.mem_append, List.mem_singleton] at hmem
          rcases hmem with hmem | hmem
          · exact hexit hmem
          · cases hmem
      · simp at h
    | recv i =>
      simp only [Pool.stepRecv] at h
      split at h
      · next job rest hp hw =>
        rw [hp] at hshape hstart
        obtain ⟨js, hjs⟩ := shape_send hshape
        simp only [Option.some.injEq] at h
        subst h
        refine ⟨hsize, Or.inr ⟨?_, ?_⟩, ?_, ?_⟩
        · simp only [hjs, startsPool_tail]
        · rcases hstart with ⟨hsp, _, _⟩ | ⟨_, hlen⟩
          · simp [startsPool] at hsp
          · simpa using hlen
        · intro hmem
          rcases List.mem_or_eq_of_mem_set hmem with hmem | hmem
          · exact hexit hmem
          · cases hmem
        · simp only [hjs]
          intro hnil
          exact absurd hnil (tail_ne_nil js)
      · simp at h
    | persist i =>
      simp only [Pool.stepPersist] at h
      split at h
      · next job hw =>
        simp only [Option.some.injEq] at h
        subst h
        refine ⟨hsize, ?_, ?_, hfin⟩
        · simpa using hstart
        · intro hmem
          rcases List.mem_or_eq_of_mem_set hmem with hmem | hmem
          · exact hexit hmem
          · cases hmem
      · simp at h
    | done i =>
      simp only [Pool.stepDone] at h
      split at h
      · next job hw =>
        split at h
        · simp only [Option.some.injEq] at h
          subst h
          exact ⟨hsize, hstart, hexit, hfin⟩
        · simp only [Option.some.injEq] at h
          subst h
          refine ⟨hsize, ?_, ?_, hfin⟩
          · rcases hstart with ⟨hsp, hws, hz⟩ | ⟨hsp, hlen⟩
            · rw [hws] at hw
              simp at hw
            · exact Or.inr ⟨hsp, by simpa using hlen⟩
          · intro hmem
            rcases List.mem_or_eq_of_mem_set hmem with hmem | hmem
            · exact hexit hmem
            · cases hmem
      · simp at h
    | exit i =>
      simp only [Pool.stepExit] at h
      split at h
      · next hw =>
        split at h
        · next hcl =>
          simp only [Option.some.injEq] at h
          subst h
          refine ⟨hsize, ?_, fun _ => hcl, hfin⟩
          rcases hstart with ⟨hsp, hws, hz⟩ | ⟨hsp, hlen⟩
          · rw [hws] at hw
            simp at hw
          · exact Or.inr ⟨hsp, by simpa using hlen⟩
        · simp at h
      · simp at h

theorem live_run {H N : Nat} (sched : List Label) :
    ∀ {s t : Pool}, s.Inv H → s.Live N → s.run sched = some t → t.Live N := by
  induction sched with
  | nil =>
    intro s t _ hl h
    simp only [Pool.run, Option.some.injEq] at h
    subst h
    exact hl
  | cons l ls ih =>
    intro s t hi hl h
    simp only [Pool.run] at h
    cases hs : s.step l with
    | none => simp [hs] at h
    | some u =>
      rw [hs] at h
      exact ih (inv_step hi hs) (live_step hi hl hs) h

/-- A pool with a busy worker has a worker that is working or back from
`doTheJob`. -/
theorem exists_busy (ws : List WorkerPc) (h : 0 < busyCount ws) :
    ∃ (i : Nat) (job : Job),
      ws[i]? = some (WorkerPc.working job) ∨ ws[i]? = some (WorkerPc.persisted job) := by
  induction ws with
  | nil => simp [busyCount] at h
  | cons w ws ih =>
    cases w with
    | working job => exact ⟨0, job, Or.inl (by simp)⟩
    | persisted job => exact ⟨0, job, Or.inr (by simp)⟩
    | waiting =>
      obtain ⟨i, job, hij⟩ := ih (by simpa [busyCount] using h)
      exact ⟨i + 1, job, by simpa using hij⟩
    | exited =>
      obtain ⟨i, job, hij⟩ := ih (by simpa [busyCount] using h)
      exact ⟨i + 1, job, by simpa using hij⟩

theorem step_working {s : Pool} {i : Nat} {job : Job}
    (hr : s.mainReturned = false) (hk : s.panicked = false)
    (hw : s.workers[i]? = some (WorkerPc.working job)) :
    ∃ t, s.step (Label.persist i) = some t := by
  simp [Pool.step, Pool.stepPersist, hr, hk, hw]

theorem step_persisted {s : Pool} {i : Nat} {job : Job}
    (hr : s.mainReturned = false) (hk : s.panicked = false)
    (hw : s.workers[i]? = some (WorkerPc.persisted job)) :
    ∃ t, s.step (Label.done i) = some t := by
  simp only [Pool.step, Pool.stepDone, hr, hk, hw, Bool.or_self, Bool.false_eq_true, if_false]
  split <;> exact ⟨_, rfl⟩

/-- No deadlock: with at least one worker in the pool, as long as `wg.Wait` has
not returned some goroutine can take a step. -/
theorem can_step {H N : Nat} {s : Pool} (hN : 1 ≤ N) (hi : s.Inv H) (hl : s.Live N)
    (hr : s.mainReturned = false) : ∃ l t, s.step l = some t := by
  obtain ⟨h1, h2, h3, h4, h5, h6, h7, h8, h9, h10, h11⟩ := hi
  obtain ⟨hsize, hstart, hexit, hfin⟩ := hl
  rcases h2 with ⟨js, hp⟩ | ⟨js, hp⟩ | ⟨j, js, hp⟩ | hp | hp
  · refine ⟨Label.main, ?_⟩
    simp [Pool.step, Pool.stepMain, hr, h1, hp]
  · refine ⟨Label.main, ?_⟩
    cases js with
    | nil => simp [Pool.step, Pool.stepMain, hr, h1, hp, dispatchActions]
    | cons j js => simp [Pool.step, Pool.stepMain, hr, h1, hp, dispatchActions_cons]
  · rcases hstart with ⟨hsp, _, _⟩ | ⟨_, hlen⟩
    · simp [hp, startsPool] at hsp
    · by_cases hsp : 0 < s.toSpawn
      · refine ⟨Label.spawn, ?_⟩
        simp [Pool.step, Pool.stepSpawn, hr, h1, hsp]
      · cases hws : s.workers with
        | nil =>
          rw [hws] at hlen
          simp only [List.length_nil] at hlen
          omega
        | cons w ws =>
          have h0 : s.workers[0]? = some w := by simp [hws]
          cases w with
          | waiting =>
            refine ⟨Label.recv 0, ?_⟩
            simp [Pool.step, Pool.stepRecv, hr, h1, hp, h0]
          | working job =>
            obtain ⟨t, ht⟩ := step_working hr h1 h0
            exact ⟨_, t, ht⟩
          | persisted job =>
            obtain ⟨t, ht⟩ := step_persisted hr h1 h0
            exact ⟨_, t, ht⟩
          | exited =>
            have hcl := hexit (by simp [hws])
            have := (h11 hcl).1
            rw [hp] at this
            simp [pushed] at this
  · by_cases hc : s.counter = 0
    · refine ⟨Label.main, ?_⟩
      simp [Pool.step, Pool.stepMain, hr, h1, hp, hc]
    · rw [hp] at h6 h7
      simp only [addCount, pushed, List.length_nil, Nat.add_zero] at h6 h7
      have hbusy : 0 < busyCount s.workers := by
        by_contra hb
        have : s.dones = s.adds := by omega
        rw [this] at h3
        omega
      obtain ⟨i, job, hij | hij⟩ := exists_busy s.workers hbusy
      · obtain ⟨t, ht⟩ := step_working hr h1 hij
        exact ⟨_, t, ht⟩
      · obtain ⟨t, ht⟩ := step_persisted hr h1 hij
        exact ⟨_, t, ht⟩
  · rw [hfin hp] at hr
    cases hr

/-- Every state an execution reaches can be run on to one in which `wg.Wait`
has returned. -/
theorem can_finish {H N : Nat} (hN : 1 ≤ N) (n : Nat) :
    ∀ s : Pool, s.weight ≤ n → s.Inv H → s.Live N →
      ∃ more t, s.run more = some t ∧ t.mainReturned = true := by
  induction n with
  | zero =>
    intro s hw hi hl
    cases hr : s.mainReturned with
    | true => exact ⟨[], s, rfl, hr⟩
    | false =>
      obtain ⟨l, t, ht⟩ := can_step hN hi hl hr
      have := weight_step hi ht
      omega
  | succ n ih =>
    intro s hw hi hl
    cases hr : s.mainReturned with
    | true => exact ⟨[], s, rfl, hr⟩
    | false =>
      obtain ⟨l, t, ht⟩ := can_step hN hi hl hr
      have hlt := weight_step hi ht
      obtain ⟨more, u, hu, hret⟩ := ih t (by omega) (inv_step hi ht) (live_step hi hl ht)
      exact ⟨l :: more, u, by simp [Pool.run, ht, hu], hret⟩

/-! ## The goroutines together: the claim -/

/-- C3, as stated, fails: with two data rows and one worker there is an
execution in which every persist succeeds and the counter reaches zero twice,
once after each row, before `wg.Wait` returns: the worker calls `wg.Done` for
the first row before the producer calls `wg.Add` for the second. -/
theorem counter_reaches_zero_twice :
    (Pool.init
        [ReadResult.row ["id", "name"], ReadResult.row ["1", "a"], ReadResult.row ["2", "b"]]
        1).counters
      [Label.main, Label.spawn,
        Label.main, Label.recv 0, Label.persist 0, Label.done 0,
        Label.main, Label.recv 0, Label.persist 0, Label.done 0,
        Label.main, Label.main]
      = [0, 0, 1, 1, 1, 0, 1, 1, 1, 0, 0, 0]
    ∧ ((Pool.init
        [ReadResult.row ["id", "name"], ReadResult.row ["1", "a"], ReadResult.row ["2", "b"]]
        1).run
      [Label.main, Label.spawn,
        Label.main, Label.recv 0, Label.persist 0, Label.done 0,
        Label.main, Label.recv 0, Label.persist 0, Label.done 0,
        Label.main, Label.main]).map
      (fun s => (s.mainReturned, s.counter, s.adds, s.dones, s.persists, s.zeroHits))
    = some (true, 0, 2, 2, 2, 2) := by
  decide

/-- C3, amended: for every input, with `H` rows dispatched, and every pool of at
least one worker, in every execution in which the persists succeed: `wg.Done`
never panics and the counter is never negative; once `H` calls of `wg.Done`
have been made the counter is zero and `doTheJob` has returned `H` times; the
execution has at most `4 * H + 2 * N + 3` steps; as long as `wg.Wait` has not
returned some goroutine can take a step, so an execution in which no goroutine
can move is one in which `wg.Wait` has returned, and the execution can be run
on to such a state; and when `wg.Wait` has returned the counter is zero after
exactly `H` calls of `wg.Add`, `H` returns of `doTheJob` and `H` calls of
`wg.Done`, whatever the pool size. On the way the counter reaches zero at least
once and at most `H` times when `H` is not zero. -/
theorem wait_returns_after_all_done (csvReader : CsvReader) (poolSize : Nat)
    (hN : 1 ≤ poolSize) :
    ∀ sched t, (Pool.init csvReader poolSize).run sched = some t →
      t.panicked = false ∧ 0 ≤ t.counter
      ∧ t.counter = (t.adds : Int) - (t.dones : Int)
      ∧ t.dones ≤ t.persists ∧ t.persists ≤ t.adds
      ∧ t.adds
          ≤ (pushed (readCsvFilePerLineThenSendToWorker csvReader Producer.start).trace).length
      ∧ sched.length
          ≤ 4 * (pushed (readCsvFilePerLineThenSendToWorker csvReader Producer.start).trace).length
            + 2 * poolSize + 3
      ∧ (t.dones
            = (pushed (readCsvFilePerLineThenSendToWorker csvReader Producer.start).trace).length →
          t.counter = 0
          ∧ t.persists
            = (pushed (readCsvFilePerLineThenSendToWorker csvReader Producer.start).trace).length)
      ∧ (t.mainReturned = false → ∃ l u, t.step l = some u)
      ∧ ((∀ l, t.step l = none) → t.mainReturned = true)
      ∧ (∃ more u, t.run more = some u ∧ u.mainReturned = true)
      ∧ (t.mainReturned = true →
          t.counter = 0
          ∧ t.adds
            = (pushed (readCsvFilePerLineThenSendToWorker csvReader Producer.start).trace).length
          ∧ t.persists
            = (pushed (readCsvFilePerLineThenSendToWorker csvReader Producer.start).trace).length
          ∧ t.dones
            = (pushed (readCsvFilePerLineThenSendToWorker csvReader Producer.start).trace).length
          ∧ t.zeroHits ≤ t.dones
          ∧ (1 ≤ t.dones → 1 ≤ t.zeroHits)) := by
  intro sched t hrun
  have hinv := inv_run sched (inv_init csvReader poolSize) hrun
  have hlive := live_run sched (inv_init csvReader poolSize) (live_init csvReader poolSize) hrun
  have hwt := weight_run sched (inv_init csvReader poolSize) hrun
  rw [weight_init] at hwt
  obtain ⟨h1, h2, h3, h4, h5, h6, h7, h8, h9, h10, h11⟩ := hinv
  have hle := shape_adds_le h2
  have hpl : persistedCount t.workers ≤ busyCount t.workers := by
    generalize t.workers = ws
    induction ws with
    | nil => simp [persistedCount, busyCount]
    | cons w ws ih => cases w <;> simp [persistedCount, busyCount] <;> omega
  refine ⟨h1, ?_, h3, by omega, by omega, by omega, by omega, ?_, ?_, ?_, ?_, ?_⟩
  · have : ((t.dones : Int)) ≤ t.adds := by
      have : t.dones ≤ t.adds := by omega
      exact_mod_cast this
    omega
  · intro hd
    have hda : t.adds = t.dones := by omega
    refine ⟨?_, by omega⟩
    rw [h3, hda]
    omega
  · intro hr
    exact can_step hN ⟨h1, h2, h3, h4, h5, h6, h7, h8, h9, h10, h11⟩ hlive hr
  · intro hstuck
    cases hr : t.mainReturned with
    | true => rfl
    | false =>
      obtain ⟨l, u, hu⟩ :=
        can_step hN ⟨h1, h2, h3, h4, h5, h6, h7, h8, h9, h10, h11⟩ hlive hr
      rw [hstuck l] at hu
      cases hu
  · exact can_finish hN t.weight t (Nat.le_refl _) ⟨h1, h2, h3, h4, h5, h6, h7, h8, h9, h10, h11⟩
      hlive
  · intro hr
    obtain ⟨hp, hc⟩ := h10 hr
    rw [hp] at h6 h7
    simp only [addCount, pushed, List.length_nil, Nat.add_zero] at h6 h7
    have hda : t.dones = t.adds := by
      have : (t.adds : Int) = t.dones := by omega
      exact_mod_cast this.symm
    refine ⟨hc, h6, by omega, by omega, h8, h9 hc⟩

theorem wait_returns_after_all_done_witness :
    1 ≤ 2
    ∧ ∃ t, (Pool.init threeRows 2).run twoWorkerSchedule = some t
        ∧ t.mainReturned = true ∧ t.counter = 0
        ∧ t.adds = 3 ∧ t.persists = 3 ∧ t.dones = 3 := by
  refine ⟨by decide, ?_⟩
  have hsome : ((Pool.init threeRows 2).run twoWorkerSchedule).isSome = true := by decide
  obtain ⟨t, ht⟩ := Option.isSome_iff_exists.mp hsome
  have hret : ((Pool.init threeRows 2).run twoWorkerSchedule).map (fun s => s.mainReturned)
      = some true := by decide
  have hr : t.mainReturned = true := by
    rw [ht] at hret
    simpa using hret
  have hlen : (pushed (readCsvFilePerLineThenSendToWorker threeRows Producer.start).trace).length
      = 3 := by decide
  obtain ⟨hc, ha, hp, hd, _, _⟩ :=
    (wait_returns_after_all_done threeRows 2 (by decide) twoWorkerSchedule t ht).2.2.2.2.2.2.2.2.2.2.2 hr
  exact ⟨t, ht, hr, hc, ha.trans hlen, hp.trans hlen, hd.trans hlen⟩

/-! ## The producer, the channel and the WaitGroup: the claims -/

/-- C8: for every input the producer closes the jobs channel exactly once, as
its last action: the trace is the pushes (with their `Add`s) followed by one
`close`, so no push comes after the close. In every execution of the whole
program, once the channel is closed every dispatched row has been received and
no push is left. -/
theorem close_once_after_last_push (rs : CsvReader) :
    closeCount (readCsvFilePerLineThenSendToWorker rs Producer.start).trace = 1
    ∧ (readCsvFilePerLineThenSendToWorker rs Producer.start).trace.getLast? = some Action.close
    ∧ (∀ before after,
        (readCsvFilePerLineThenSendToWorker rs Producer.start).trace
            = before ++ Action.close :: after →
          after = []
            ∧ pushed before
              = pushed (readCsvFilePerLineThenSendToWorker rs Producer.start).trace)
    ∧ ∀ poolSize sched t, (Pool.init rs poolSize).run sched = some t → t.closed = true →
        pushed t.prog = []
          ∧ t.received
            = (pushed (readCsvFilePerLineThenSendToWorker rs Producer.start).trace).length := by
  have hpool : ∀ poolSize sched t, (Pool.init rs poolSize).run sched = some t →
      t.closed = true →
        pushed t.prog = []
          ∧ t.received
            = (pushed (readCsvFilePerLineThenSendToWorker rs Producer.start).trace).length := by
    intro poolSize sched t hrun hcl
    obtain ⟨h1, h2, h3, h4, h5, h6, h7, h8, h9, h10, h11⟩ :=
      inv_run sched (inv_init rs poolSize) hrun
    have hp := (h11 hcl).1
    rw [hp] at h7
    exact ⟨hp, by simpa using h7⟩
  refine ⟨?_, ?_, ?_, hpool⟩
  all_goals rw [producer_trace]
  all_goals generalize ((leadingRows rs).dropWhile (fun r => r.isEmpty)).tail = jobs
  · simp [closeCount_append, closeCount_dispatchActions, closeCount]
  · simp
  · intro before after h
    have hc : closeCount (before ++ Action.close :: after) = 1 := by
      rw [← h]; simp [closeCount_append, closeCount_dispatchActions, closeCount]
    have hafter : after = [] := by
      rcases List.eq_nil_or_concat after with hnil | ⟨init, last, hlast⟩
      · exact hnil
      · exfalso
        rw [hlast] at h
        have h2 : dispatchActions jobs ++ [Action.close]
            = (before ++ Action.close :: init) ++ [last] := by
          rw [h]; simp
        have h3 := List.append_inj' h2 rfl
        have hl : last = Action.close := by
          have := h3.2; simp at this; exact this.symm
        have hd := h3.1
        have : closeCount (dispatchActions jobs) = closeCount (before ++ Action.close :: init) := by
          rw [hd]
        rw [closeCount_dispatchActions, closeCount_append] at this
        simp only [closeCount] at this
        omega
    refine ⟨hafter, ?_⟩
    rw [hafter] at h
    have h2 : dispatchActions jobs ++ [Action.close] = before ++ [Action.close] := by
      rw [h]
    have := (List.append_inj' h2 rfl).1
    rw [pushed_append, ← this]
    simp [pushed]


/-- C9: for every input the producer issues one `wg.Add(1)` per dispatched
row, immediately before that row's push; every `Add` comes before the close, and
`main` calls `wg.Wait` only after the producer has returned. For an input with
at most the header row no `Add` is issued at all, and the counter is zero in
every state of every execution, so that `wg.Wait` does not block. -/
theorem add_before_each_push (rs : CsvReader) :
    (readCsvFilePerLineThenSendToWorker rs Producer.start).trace
        = dispatchActions (pushed (readCsvFilePerLineThenSendToWorker rs Producer.start).trace)
            ++ [Action.close]
    ∧ (mainPipeline rs).trace
        = Action.goDispatchWorker ::
            (dispatchActions (pushed (readCsvFilePerLineThenSendToWorker rs Producer.start).trace)
              ++ [Action.close, Action.wgWait])
    ∧ addCount (mainPipeline rs).trace
        = (pushed (readCsvFilePerLineThenSendToWorker rs Producer.start).trace).length
    ∧ ((leadingRows rs).length ≤ 1 → addCount (mainPipeline rs).trace = 0)
    ∧ ((leadingRows rs).length ≤ 1 →
        ∀ poolSize sched t, (Pool.init rs poolSize).run sched = some t →
          t.adds = 0 ∧ t.counter = 0) := by
  have hadd : addCount (mainPipeline rs).trace
      = (pushed (readCsvFilePerLineThenSendToWorker rs Producer.start).trace).length := by
    rw [mainPipeline_trace]
    simp [addCount, addCount_append, addCount_dispatchActions]
  refine ⟨?_, mainPipeline_trace rs, hadd, ?_, ?_⟩
  · rw [pushed_producer]; exact producer_trace rs
  · intro hlen
    rw [hadd, pushed_of_header_only rs hlen]; rfl
  · intro hlen poolSize sched t hrun
    obtain ⟨h1, h2, h3, h4, h5, h6, h7, h8, h9, h10, h11⟩ :=
      inv_run sched (inv_init rs poolSize) hrun
    rw [pushed_of_header_only rs hlen] at h6 h7
    simp only [List.length_nil] at h6 h7
    have ha : t.adds = 0 := by omega
    have hd : t.dones = 0 := by omega
    refine ⟨ha, ?_⟩
    rw [h3, ha, hd]; rfl

end InsertCsv
